import Mathlib

/-!
Verification of the semantic DOM layer of the taplo TOML processor
(src/taplo/src/dom.rs), as a shallow embedding.

Modelling conventions:
* Source positions (rowan text ranges) play no role in any verified claim;
  syntax trees are modelled structurally and `text_range` based data is
  represented by the syntax node itself (see `Error.spanned`).
* Token and string text is modelled as `List Char` (`Str`), which makes the
  quote-trimming functions directly provable.
* The `merge` engine of `Entries` is mutually recursive in Rust; it is
  embedded fuel-indexed (structurally recursive on the fuel), returning
  `none` when the fuel runs out and also on the `panic!` paths of the
  source.  The fuel is an artifact of the embedding: sufficiency of some
  fuel for every input is proved separately.
* The iterative work-list of `Entries::normalize` is expressed as the
  equivalent structural recursion over the tree.
-/

namespace Taplo

/-- Character-list strings, used for all token text. -/
abbrev Str := List Char

/-- Syntax kinds of the lossless parse tree (crate::syntax::SyntaxKind),
restricted to the kinds the DOM layer inspects; every other kind is `OTHER`. -/
inductive SynKind where
  | ROOT
  | TABLE_HEADER
  | TABLE_ARRAY_HEADER
  | ENTRY
  | KEY
  | VALUE
  | ARRAY
  | INLINE_TABLE
  | IDENT
  | STRING
  | MULTI_LINE_STRING
  | STRING_LITERAL
  | MULTI_LINE_STRING_LITERAL
  | INTEGER
  | INTEGER_HEX
  | INTEGER_OCT
  | INTEGER_BIN
  | FLOAT
  | BOOL
  | DATE
  | OTHER
deriving DecidableEq

/-- Syntax elements (rowan NodeOrToken): interior nodes with children, or
leaf tokens carrying text. -/
inductive Syn where
  | node (kind : SynKind) (children : List Syn)
  | tok (kind : SynKind) (text : Str)

mutual
def synDecEq : (a b : Syn) → Decidable (a = b)
  | .node k1 c1, .node k2 c2 =>
    match decEq k1 k2 with
    | isTrue h1 =>
      match synListDecEq c1 c2 with
      | isTrue h2 => isTrue (by rw [h1, h2])
      | isFalse h2 => isFalse (by intro h; cases h; exact h2 rfl)
    | isFalse h1 => isFalse (by intro h; cases h; exact h1 rfl)
  | .node _ _, .tok _ _ => isFalse (by intro h; cases h)
  | .tok _ _, .node _ _ => isFalse (by intro h; cases h)
  | .tok k1 t1, .tok k2 t2 =>
    match decEq k1 k2 with
    | isTrue h1 =>
      match decEq t1 t2 with
      | isTrue h2 => isTrue (by rw [h1, h2])
      | isFalse h2 => isFalse (by intro h; cases h; exact h2 rfl)
    | isFalse h1 => isFalse (by intro h; cases h; exact h1 rfl)
def synListDecEq : (as bs : List Syn) → Decidable (as = bs)
  | [], [] => isTrue rfl
  | [], _ :: _ => isFalse (by intro h; cases h)
  | _ :: _, [] => isFalse (by intro h; cases h)
  | a :: as, b :: bs =>
    match synDecEq a b with
    | isTrue h1 =>
      match synListDecEq as bs with
      | isTrue h2 => isTrue (by rw [h1, h2])
      | isFalse h2 => isFalse (by intro h; cases h; exact h2 rfl)
    | isFalse h1 => isFalse (by intro h; cases h; exact h1 rfl)
end

instance : DecidableEq Syn := synDecEq

namespace Syn

/-- Kind of a syntax element. -/
def kind : Syn → SynKind
  | .node k _ => k
  | .tok k _ => k

/-- All children, nodes and tokens alike (rowan children_with_tokens). -/
def childrenWithTokens : Syn → List Syn
  | .node _ cs => cs
  | .tok _ _ => []

/-- True for interior nodes. -/
def isNode : Syn → Bool
  | .node _ _ => true
  | .tok _ _ => false

/-- First child that is a node (rowan first_child). -/
def firstChild (s : Syn) : Option Syn :=
  s.childrenWithTokens.find? isNode

/-- First child, node or token (rowan first_child_or_token). -/
def firstChildOrToken (s : Syn) : Option Syn :=
  s.childrenWithTokens.head?

/-- Node children only (used for the next_sibling step of EntryNode::cast:
the sibling node following the first child node is the second node child). -/
def nodeChildren (s : Syn) : List Syn :=
  s.childrenWithTokens.filter isNode

end Syn

/-- Syntax tokens (rowan SyntaxToken): a leaf kind together with its text. -/
structure Token where
  kind : SynKind
  text : Str
deriving DecidableEq

/-- Preorder traversal of an element and all of its descendants
(rowan descendants_with_tokens, which starts with the element itself). -/
def synDescendants : Syn → List Syn
  | .tok k t => [.tok k t]
  | .node k cs => .node k cs :: synDescendantsList cs
where
  synDescendantsList : List Syn → List Syn
  | [] => []
  | c :: cs => synDescendants c ++ synDescendantsList cs

/-- Dotted keys (KeyNode): the originating KEY syntax node, the IDENT
tokens of the parts, and the array-of-tables disambiguation index. -/
structure KeyNode where
  stx : Syn
  idents : List Token
  index : Nat
deriving DecidableEq

namespace KeyNode

/-- Drops every trailing occurrence of `c` (Rust str::trim_end_matches with a
one-character pattern). -/
def trimEnd (c : Char) (s : Str) : Str :=
  (s.reverse.dropWhile (· = c)).reverse

/-- Removal of every leading and every trailing occurrence of `c`
(Rust trim_start_matches followed by trim_end_matches). -/
def trimRun (c : Char) (s : Str) : Str :=
  trimEnd c (s.dropWhile (· = c))

/-- Unquoting of a single ident token's text, exactly as KeyNode::keys_str
does it: if the text starts with a double quote, every leading and trailing
double quote is removed (trim_start_matches / trim_end_matches); if the
result then starts with a single quote, the same happens with single quotes. -/
def stripQuotes (s : Str) : Str :=
  let s1 := if s.head? = some '"' then trimRun '"' s else s
  if s1.head? = some '\'' then trimRun '\'' s1 else s1

/-- Unquoted parts of a dotted key (KeyNode::keys_str). -/
def keysStr (k : KeyNode) : List Str :=
  k.idents.map fun t => stripQuotes t.text

/-- Number of parts of the key (KeyNode::key_count). -/
def keyCount (k : KeyNode) : Nat :=
  k.idents.length

/-- Full dotted key (KeyNode::full_key). -/
def fullKey (k : KeyNode) : Str :=
  (k.keysStr.intersperse ['.']).flatten

/-- Whether the key starts with the same dotted keys as other
(KeyNode::is_part_of): false if other is shorter, otherwise the pairwise
comparison of the unquoted parts up to the length of the shorter key. -/
def isPartOf (self other : KeyNode) : Bool :=
  if other.idents.length < self.idents.length then false
  else (self.keysStr.zip other.keysStr).all fun p => p.1 = p.2

/-- KeyNode::contains. -/
def contains (self other : KeyNode) : Bool :=
  other.isPartOf self

/-- Retains the first `max 1 n` idents (KeyNode::outer). -/
def outer (self : KeyNode) (n : Nat) : KeyNode :=
  { self with idents := self.idents.take (Nat.max 1 n) }

/-- Skips `min n (len - 1)` idents from the left, always retaining at least
one ident (KeyNode::inner). -/
def inner (self : KeyNode) (n : Nat) : KeyNode :=
  let maxEndRange := self.idents.length - 1
  let maxRange := Nat.min n maxEndRange
  if maxRange = 0 then self
  else { self with idents := self.idents.drop maxRange }

/-- Length of the longest shared initial run of unquoted parts
(KeyNode::common_prefix_count). -/
def commonPfxCount (self other : KeyNode) : Nat :=
  go self.keysStr other.keysStr
where
  go : List Str → List Str → Nat
  | a :: as, b :: bs => if a = b then go as bs + 1 else 0
  | _, _ => 0

/-- Equality of keys ignoring the index (KeyNode::eq_keys). -/
def eqKeys (self other : KeyNode) : Bool :=
  self.keyCount = other.keyCount && self.isPartOf other

/-- Prepends other's idents and adopts its index (KeyNode::with_prefix). -/
def withPfx (self other : KeyNode) : KeyNode :=
  { self with idents := other.idents ++ self.idents, index := other.index }

/-- Removes other's common prefix from self (KeyNode::without_prefix). -/
def withoutPfx (self other : KeyNode) : KeyNode :=
  let count := self.commonPfxCount other
  if count > 0 then self.inner count else self

/-- KeyNode::with_index. -/
def withIndex (self : KeyNode) (index : Nat) : KeyNode :=
  { self with index := index }

/-- All idents but the last one (KeyNode::prefix). -/
def pfxKey (self : KeyNode) : KeyNode :=
  self.outer (self.keyCount - 1)

/-- The last ident (KeyNode::last). -/
def lastKey (self : KeyNode) : KeyNode :=
  self.inner self.keyCount

/-- Structural equality as the Rust PartialEq for KeyNode: eq_keys plus
equal indices.  This is the equality the IndexMap of the root walk uses. -/
def keyEq (self other : KeyNode) : Bool :=
  self.eqKeys other && self.index = other.index

end KeyNode

/-- String sub-kinds (dom::StringKind). -/
inductive StringKind where
  | Basic
  | MultiLine
  | Literal
  | MultiLineLiteral
deriving DecidableEq

/-- Integer representations (dom::IntegerRepr). -/
inductive IntegerRepr where
  | Dec
  | Bin
  | Oct
  | Hex
deriving DecidableEq

mutual
/-- Tagged union of TOML values (dom::ValueNode).  Scalar variants carry
their originating token; `empty` is the transient placeholder
(ValueNode::Empty). -/
inductive ValueNode where
  | bool (t : Token)
  | strv (t : Token) (sk : StringKind) (content : Str)
  | integer (t : Token) (rep : IntegerRepr)
  | float (t : Token)
  | date (t : Token)
  | array (a : ArrayNode)
  | table (t : TableNode)
  | empty
/-- Arrays, also used for arrays of tables (dom::ArrayNode). -/
inductive ArrayNode where
  | mk (stx : Syn) (tables : Bool) (items : List ValueNode)
/-- Tables, arrays-of-tables elements and inline tables (dom::TableNode). -/
inductive TableNode where
  | mk (stx : Syn) (array : Bool) (pseudo : Bool) (entries : List EntryNode)
/-- A key = value binding (dom::EntryNode). -/
inductive EntryNode where
  | mk (stx : Syn) (key : KeyNode) (value : ValueNode)
end

mutual
def valueDecEq (a b : ValueNode) : Decidable (a = b) :=
  match a, b with
  | .bool t1, .bool t2 =>
    match decEq t1 t2 with
    | isTrue h => isTrue (by rw [h])
    | isFalse h => isFalse (by intro hh; cases hh; exact h rfl)
  | .strv t1 k1 c1, .strv t2 k2 c2 =>
    match decEq t1 t2, decEq k1 k2, decEq c1 c2 with
    | isTrue h1, isTrue h2, isTrue h3 => isTrue (by rw [h1, h2, h3])
    | isFalse h1, _, _ => isFalse (by intro hh; cases hh; exact h1 rfl)
    | _, isFalse h2, _ => isFalse (by intro hh; cases hh; exact h2 rfl)
    | _, _, isFalse h3 => isFalse (by intro hh; cases hh; exact h3 rfl)
  | .integer t1 r1, .integer t2 r2 =>
    match decEq t1 t2, decEq r1 r2 with
    | isTrue h1, isTrue h2 => isTrue (by rw [h1, h2])
    | isFalse h1, _ => isFalse (by intro hh; cases hh; exact h1 rfl)
    | _, isFalse h2 => isFalse (by intro hh; cases hh; exact h2 rfl)
  | .float t1, .float t2 =>
    match decEq t1 t2 with
    | isTrue h => isTrue (by rw [h])
    | isFalse h => isFalse (by intro hh; cases hh; exact h rfl)
  | .date t1, .date t2 =>
    match decEq t1 t2 with
    | isTrue h => isTrue (by rw [h])
    | isFalse h => isFalse (by intro hh; cases hh; exact h rfl)
  | .array a1, .array a2 =>
    match arrayDecEq a1 a2 with
    | isTrue h => isTrue (by rw [h])
    | isFalse h => isFalse (by intro hh; cases hh; exact h rfl)
  | .table t1, .table t2 =>
    match tableDecEq t1 t2 with
    | isTrue h => isTrue (by rw [h])
    | isFalse h => isFalse (by intro hh; cases hh; exact h rfl)
  | .empty, .empty => isTrue rfl
  | .bool _, .strv _ _ _ => isFalse (by intro h; cases h)
  | .bool _, .integer _ _ => isFalse (by intro h; cases h)
  | .bool _, .float _ => isFalse (by intro h; cases h)
  | .bool _, .date _ => isFalse (by intro h; cases h)
  | .bool _, .array _ => isFalse (by intro h; cases h)
  | .bool _, .table _ => isFalse (by intro h; cases h)
  | .bool _, .empty => isFalse (by intro h; cases h)
  | .strv _ _ _, .bool _ => isFalse (by intro h; cases h)
  | .strv _ _ _, .integer _ _ => isFalse (by intro h; cases h)
  | .strv _ _ _, .float _ => isFalse (by intro h; cases h)
  | .strv _ _ _, .date _ => isFalse (by intro h; cases h)
  | .strv _ _ _, .array _ => isFalse (by intro h; cases h)
  | .strv _ _ _, .table _ => isFalse (by intro h; cases h)
  | .strv _ _ _, .empty => isFalse (by intro h; cases h)
  | .integer _ _, .bool _ => isFalse (by intro h; cases h)
  | .integer _ _, .strv _ _ _ => isFalse (by intro h; cases h)
  | .integer _ _, .float _ => isFalse (by intro h; cases h)
  | .integer _ _, .date _ => isFalse (by intro h; cases h)
  | .integer _ _, .array _ => isFalse (by intro h; cases h)
  | .integer _ _, .table _ => isFalse (by intro h; cases h)
  | .integer _ _, .empty => isFalse (by intro h; cases h)
  | .float _, .bool _ => isFalse (by intro h; cases h)
  | .float _, .strv _ _ _ => isFalse (by intro h; cases h)
  | .float _, .integer _ _ => isFalse (by intro h; cases h)
  | .float _, .date _ => isFalse (by intro h; cases h)
  | .float _, .array _ => isFalse (by intro h; cases h)
  | .float _, .table _ => isFalse (by intro h; cases h)
  | .float _, .empty => isFalse (by intro h; cases h)
  | .date _, .bool _ => isFalse (by intro h; cases h)
  | .date _, .strv _ _ _ => isFalse (by intro h; cases h)
  | .date _, .integer _ _ => isFalse (by intro h; cases h)
  | .date _, .float _ => isFalse (by intro h; cases h)
  | .date _, .array _ => isFalse (by intro h; cases h)
  | .date _, .table _ => isFalse (by intro h; cases h)
  | .date _, .empty => isFalse (by intro h; cases h)
  | .array _, .bool _ => isFalse (by intro h; cases h)
  | .array _, .strv _ _ _ => isFalse (by intro h; cases h)
  | .array _, .integer _ _ => isFalse (by intro h; cases h)
  | .array _, .float _ => isFalse (by intro h; cases h)
  | .array _, .date _ => isFalse (by intro h; cases h)
  | .array _, .table _ => isFalse (by intro h; cases h)
  | .array _, .empty => isFalse (by intro h; cases h)
  | .table _, .bool _ => isFalse (by intro h; cases h)
  | .table _, .strv _ _ _ => isFalse (by intro h; cases h)
  | .table _, .integer _ _ => isFalse (by intro h; cases h)
  | .table _, .float _ => isFalse (by intro h; cases h)
  | .table _, .date _ => isFalse (by intro h; cases h)
  | .table _, .array _ => isFalse (by intro h; cases h)
  | .table _, .empty => isFalse (by intro h; cases h)
  | .empty, .bool _ => isFalse (by intro h; cases h)
  | .empty, .strv _ _ _ => isFalse (by intro h; cases h)
  | .empty, .integer _ _ => isFalse (by intro h; cases h)
  | .empty, .float _ => isFalse (by intro h; cases h)
  | .empty, .date _ => isFalse (by intro h; cases h)
  | .empty, .array _ => isFalse (by intro h; cases h)
  | .empty, .table _ => isFalse (by intro h; cases h)
termination_by structural a
def arrayDecEq (a b : ArrayNode) : Decidable (a = b) :=
  match a, b with
  | .mk s1 t1 i1, .mk s2 t2 i2 =>
    match decEq s1 s2, decEq t1 t2, valueListDecEq i1 i2 with
    | isTrue h1, isTrue h2, isTrue h3 => isTrue (by rw [h1, h2, h3])
    | isFalse h1, _, _ => isFalse (by intro hh; cases hh; exact h1 rfl)
    | _, isFalse h2, _ => isFalse (by intro hh; cases hh; exact h2 rfl)
    | _, _, isFalse h3 => isFalse (by intro hh; cases hh; exact h3 rfl)
termination_by structural a
def tableDecEq (a b : TableNode) : Decidable (a = b) :=
  match a, b with
  | .mk s1 a1 p1 e1, .mk s2 a2 p2 e2 =>
    match decEq s1 s2, decEq a1 a2, decEq p1 p2, entryListDecEq e1 e2 with
    | isTrue h1, isTrue h2, isTrue h3, isTrue h4 => isTrue (by rw [h1, h2, h3, h4])
    | isFalse h1, _, _, _ => isFalse (by intro hh; cases hh; exact h1 rfl)
    | _, isFalse h2, _, _ => isFalse (by intro hh; cases hh; exact h2 rfl)
    | _, _, isFalse h3, _ => isFalse (by intro hh; cases hh; exact h3 rfl)
    | _, _, _, isFalse h4 => isFalse (by intro hh; cases hh; exact h4 rfl)
termination_by structural a
def entryDecEq (a b : EntryNode) : Decidable (a = b) :=
  match a, b with
  | .mk s1 k1 v1, .mk s2 k2 v2 =>
    match decEq s1 s2, decEq k1 k2, valueDecEq v1 v2 with
    | isTrue h1, isTrue h2, isTrue h3 => isTrue (by rw [h1, h2, h3])
    | isFalse h1, _, _ => isFalse (by intro hh; cases hh; exact h1 rfl)
    | _, isFalse h2, _ => isFalse (by intro hh; cases hh; exact h2 rfl)
    | _, _, isFalse h3 => isFalse (by intro hh; cases hh; exact h3 rfl)
termination_by structural a
def valueListDecEq (a b : List ValueNode) : Decidable (a = b) :=
  match a, b with
  | [], [] => isTrue rfl
  | [], _ :: _ => isFalse (by intro h; cases h)
  | _ :: _, [] => isFalse (by intro h; cases h)
  | a :: as, b :: bs =>
    match valueDecEq a b, valueListDecEq as bs with
    | isTrue h1, isTrue h2 => isTrue (by rw [h1, h2])
    | isFalse h1, _ => isFalse (by intro hh; cases hh; exact h1 rfl)
    | _, isFalse h2 => isFalse (by intro hh; cases hh; exact h2 rfl)
termination_by structural a
def entryListDecEq (a b : List EntryNode) : Decidable (a = b) :=
  match a, b with
  | [], [] => isTrue rfl
  | [], _ :: _ => isFalse (by intro h; cases h)
  | _ :: _, [] => isFalse (by intro h; cases h)
  | a :: as, b :: bs =>
    match entryDecEq a b, entryListDecEq as bs with
    | isTrue h1, isTrue h2 => isTrue (by rw [h1, h2])
    | isFalse h1, _ => isFalse (by intro hh; cases hh; exact h1 rfl)
    | _, isFalse h2 => isFalse (by intro hh; cases hh; exact h2 rfl)
termination_by structural a
end

instance : DecidableEq ValueNode := valueDecEq
instance : DecidableEq ArrayNode := arrayDecEq
instance : DecidableEq TableNode := tableDecEq
instance : DecidableEq EntryNode := entryDecEq

namespace ArrayNode

/-- Originating syntax of an array. -/
def stx : ArrayNode → Syn
  | .mk s _ _ => s

/-- Flag distinguishing arrays of tables. -/
def tables : ArrayNode → Bool
  | .mk _ t _ => t

/-- Items of an array (ArrayNode::items). -/
def items : ArrayNode → List ValueNode
  | .mk _ _ i => i

end ArrayNode

namespace TableNode

/-- Originating syntax of a table. -/
def stx : TableNode → Syn
  | .mk s _ _ _ => s

/-- Flag marking one element of an array-of-tables during construction. -/
def array : TableNode → Bool
  | .mk _ a _ _ => a

/-- Flag marking tables synthesized from dotted keys. -/
def pseudo : TableNode → Bool
  | .mk _ _ p _ => p

/-- Entries of a table (TableNode::entries). -/
def entries : TableNode → List EntryNode
  | .mk _ _ _ e => e

/-- TableNode::is_part_of_array. -/
def isPartOfArray (t : TableNode) : Bool :=
  t.array

/-- TableNode::is_inline: true exactly when the originating syntax node has
kind INLINE_TABLE. -/
def isInline (t : TableNode) : Bool :=
  t.stx.kind = SynKind.INLINE_TABLE

/-- TableNode::is_pseudo. -/
def isPseudo (t : TableNode) : Bool :=
  t.pseudo

end TableNode

namespace EntryNode

/-- Originating syntax of an entry. -/
def stx : EntryNode → Syn
  | .mk s _ _ => s

/-- Key of an entry (EntryNode::key). -/
def key : EntryNode → KeyNode
  | .mk _ k _ => k

/-- Value of an entry (EntryNode::value). -/
def value : EntryNode → ValueNode
  | .mk _ _ v => v

end EntryNode

/-- Structured DOM errors (dom::Error).  The `spanned` variant carries the
offending syntax element in place of its text range. -/
inductive Error where
  | duplicateKey (first second : KeyNode)
  | expectedTableArray (target key : KeyNode)
  | expectedTable (target key : KeyNode)
  | inlineTable (target key : KeyNode)
  | spanned (stx : Syn) (message : Str)
  | generic (s : Str)
deriving DecidableEq

/-- Modelled from the spec: crate::util::StringExt::remove_prefix is not in
src/; the spec says delimiters are stripped "exactly once" from each end, so
this removes `pat` once when it is a prefix. -/
def removePfx (s pat : Str) : Str :=
  if pat.isPrefixOf s then s.drop pat.length else s

/-- Modelled from the spec: crate::util::StringExt::remove_suffix, the
suffix counterpart of `removePfx`. -/
def removeSfx (s pat : Str) : Str :=
  if pat.isSuffixOf s then s.take (s.length - pat.length) else s

/-- Value of a hexadecimal digit. -/
def hexDigit (c : Char) : Option Nat :=
  if '0' ≤ c ∧ c ≤ '9' then some (c.toNat - '0'.toNat)
  else if 'a' ≤ c ∧ c ≤ 'f' then some (c.toNat - 'a'.toNat + 10)
  else if 'A' ≤ c ∧ c ≤ 'F' then some (c.toNat - 'A'.toNat + 10)
  else none

/-- Decodes a list of hex digits into a character, failing on a non-digit or
an invalid scalar value. -/
def hexChar (ds : List Char) : Option Char := do
  let n ← ds.foldlM (fun acc c => (hexDigit c).map (acc * 16 + ·)) 0
  if n.isValidChar then some (Char.ofNat n) else none

/-- Modelled from the spec: crate::util::unescape is not in src/; per the
spec it "decodes TOML escape sequences; may fail".  The TOML escapes
b t n f r quote backslash and the uXXXX / UXXXXXXXX forms are decoded;
anything else following a backslash fails. -/
def unescape : Str → Option Str
  | [] => some []
  | '\\' :: 'u' :: a :: b :: c :: d :: rest => do
      let ch ← hexChar [a, b, c, d]
      let tail ← unescape rest
      pure (ch :: tail)
  | '\\' :: 'U' :: a :: b :: c :: d :: e :: f :: g :: h :: rest => do
      let ch ← hexChar [a, b, c, d, e, f, g, h]
      let tail ← unescape rest
      pure (ch :: tail)
  | '\\' :: e :: rest => do
      let ch ← (match e with
        | 'b' => some (Char.ofNat 8)
        | 't' => some '\t'
        | 'n' => some '\n'
        | 'f' => some (Char.ofNat 12)
        | 'r' => some '\r'
        | '"' => some '"'
        | '\\' => some '\\'
        | _ => none)
      let tail ← unescape rest
      pure (ch :: tail)
  | ['\\'] => none
  | c :: rest => (unescape rest).map (c :: ·)

/-- Cast of a KEY syntax node into a KeyNode (impl Cast for KeyNode): the
IDENT tokens among the children, failing when there are none; index 0. -/
def castKeyNode (s : Syn) : Option KeyNode :=
  if s.kind ≠ SynKind.KEY then none
  else if !s.isNode then none
  else
    let idents := s.childrenWithTokens.filterMap fun c =>
      match c with
      | .tok SynKind.IDENT text => some (Token.mk SynKind.IDENT text)
      | _ => none
    if idents.length = 0 then none
    else some ⟨s, idents, 0⟩

/-- Cast of a string token into a StringNode value (impl Cast for
StringNode): each variant strips its delimiter once from both ends,
multi-line variants additionally strip one leading newline, and the
non-literal variants are unescape-decoded, failing when unescape fails. -/
def castStringNode (s : Syn) : Option ValueNode :=
  match s with
  | .tok SynKind.STRING text =>
      (unescape (removeSfx (removePfx text ['"']) ['"'])).map fun c =>
        .strv ⟨SynKind.STRING, text⟩ .Basic c
  | .tok SynKind.MULTI_LINE_STRING text =>
      (unescape (removePfx (removeSfx (removePfx text ['"', '"', '"'])
          ['"', '"', '"']) ['\n'])).map fun c =>
        .strv ⟨SynKind.MULTI_LINE_STRING, text⟩ .MultiLine c
  | .tok SynKind.STRING_LITERAL text =>
      some (.strv ⟨SynKind.STRING_LITERAL, text⟩ .Literal
        (removeSfx (removePfx text ['\'']) ['\'']))
  | .tok SynKind.MULTI_LINE_STRING_LITERAL text =>
      some (.strv ⟨SynKind.MULTI_LINE_STRING_LITERAL, text⟩ .MultiLineLiteral
        (removePfx (removeSfx (removePfx text ['\'', '\'', '\''])
          ['\'', '\'', '\'']) ['\n']))
  | _ => none

/-- Cast of an integer token (impl Cast for IntegerNode), tagging the
representation by the token kind. -/
def castIntegerNode (s : Syn) : Option ValueNode :=
  match s with
  | .tok SynKind.INTEGER text => some (.integer ⟨SynKind.INTEGER, text⟩ .Dec)
  | .tok SynKind.INTEGER_BIN text => some (.integer ⟨SynKind.INTEGER_BIN, text⟩ .Bin)
  | .tok SynKind.INTEGER_HEX text => some (.integer ⟨SynKind.INTEGER_HEX, text⟩ .Hex)
  | .tok SynKind.INTEGER_OCT text => some (.integer ⟨SynKind.INTEGER_OCT, text⟩ .Oct)
  | _ => none

/-- Cast of a BOOL token (dom_primitives for BoolNode). -/
def castBoolNode (s : Syn) : Option ValueNode :=
  match s with
  | .tok SynKind.BOOL text => some (.bool ⟨SynKind.BOOL, text⟩)
  | _ => none

/-- Cast of a FLOAT token (dom_primitives for FloatNode). -/
def castFloatNode (s : Syn) : Option ValueNode :=
  match s with
  | .tok SynKind.FLOAT text => some (.float ⟨SynKind.FLOAT, text⟩)
  | _ => none

/-- Cast of a DATE token (dom_primitives for DateNode). -/
def castDateNode (s : Syn) : Option ValueNode :=
  match s with
  | .tok SynKind.DATE text => some (.date ⟨SynKind.DATE, text⟩)
  | _ => none

mutual
/-- Kind dispatch shared verbatim by ValueNode::cdom_inner and by the match
inside ValueNode::cast after unwrapping the VALUE node.  Fuel-indexed; the
fuel only limits recursion through tables and arrays. -/
def dispatchValueF : Nat → Syn → Option ValueNode
  | 0, _ => none
  | f+1, c =>
    match c.kind with
    | .INLINE_TABLE => (castTableF f c).map .table
    | .ARRAY => (castArrayF f c).map .array
    | .BOOL => castBoolNode c
    | .STRING => castStringNode c
    | .STRING_LITERAL => castStringNode c
    | .MULTI_LINE_STRING => castStringNode c
    | .MULTI_LINE_STRING_LITERAL => castStringNode c
    | .INTEGER => castIntegerNode c
    | .INTEGER_BIN => castIntegerNode c
    | .INTEGER_HEX => castIntegerNode c
    | .INTEGER_OCT => castIntegerNode c
    | .FLOAT => castFloatNode c
    | .DATE => castDateNode c
    | _ => none
/-- Cast of a wrapping node into a value (impl Cast for ValueNode): unwraps
the first child or token and dispatches on its kind. -/
def castValueF : Nat → Syn → Option ValueNode
  | 0, _ => none
  | f+1, s =>
    if !s.isNode then none
    else
      match s.firstChildOrToken with
      | none => none
      | some c => dispatchValueF f c
/-- Cast of TABLE_HEADER, TABLE_ARRAY_HEADER and INLINE_TABLE nodes into a
TableNode (impl Cast for TableNode): headers must have a castable first
child KEY and start with no entries; inline tables cast their children as
entries. -/
def castTableF : Nat → Syn → Option TableNode
  | 0, _ => none
  | f+1, s =>
    if !s.isNode then none
    else
      match s.kind with
      | .TABLE_HEADER =>
          match s.firstChild >>= castKeyNode with
          | none => none
          | some _ => some (.mk s false false [])
      | .TABLE_ARRAY_HEADER =>
          match s.firstChild >>= castKeyNode with
          | none => none
          | some _ => some (.mk s true false [])
      | .INLINE_TABLE =>
          some (.mk s false false (s.childrenWithTokens.filterMap (castEntryF f)))
      | _ => none
/-- Cast of ARRAY nodes into an ArrayNode (impl Cast for ArrayNode): the
items are every descendant (tokens included) that casts as a wrapped value;
a TABLE_ARRAY_HEADER casts as an empty array.  `tables` is false here. -/
def castArrayF : Nat → Syn → Option ArrayNode
  | 0, _ => none
  | f+1, s =>
    if !s.isNode then none
    else
      match s.kind with
      | .ARRAY => some (.mk s false ((synDescendants s).filterMap (castValueF f)))
      | .TABLE_ARRAY_HEADER => some (.mk s false [])
      | _ => none
/-- Cast of ENTRY nodes into an EntryNode (impl Cast for EntryNode): the key
is the first child or token cast as a KeyNode, the value is the node sibling
following the first child node, cast as a wrapped value; either failing
fails the entry. -/
def castEntryF : Nat → Syn → Option EntryNode
  | 0, _ => none
  | f+1, s =>
    if s.kind ≠ SynKind.ENTRY then none
    else if !s.isNode then none
    else
      match s.firstChildOrToken >>= castKeyNode with
      | none => none
      | some k =>
        match s.nodeChildren.get? 1 with
        | none => none
        | some vn =>
          match castValueF f vn with
          | none => none
          | some v => some (.mk s k v)
end

/-- Helper building an entry with a replaced key. -/
def EntryNode.withKey (e : EntryNode) (k : KeyNode) : EntryNode :=
  .mk e.stx k e.value

/-- Helper building an entry with a replaced value. -/
def EntryNode.withValue (e : EntryNode) (v : ValueNode) : EntryNode :=
  .mk e.stx e.key v

/-- Outcome of Entries::merge_entry: Ok(true), Ok(false) or Err. -/
inductive MergeRes where
  | merged
  | distinct
  | failed (e : Error)
deriving DecidableEq

/-- Transformation of an array-of-tables table into a one-element Array with
`tables = true` (the should_insert arm of Entries::merge). -/
def arrayTransform (e : EntryNode) : EntryNode :=
  match e.value with
  | .table t =>
    if t.array then
      e.withValue (.array (.mk t.stx true [.table (.mk t.stx false t.pseudo t.entries)]))
    else e
  | _ => e

mutual
/-- Entries::merge_entry.  Returns the (possibly updated) old entry, the
error list after any recursive merges, and the outcome.  `none` models fuel
exhaustion as well as the two `panic!` paths of the source ("expected array
of tables" when the last item of an array of tables is not a table, and
"empty value"). -/
def mergeEntryF : Nat → EntryNode → EntryNode → List Error →
    Option (EntryNode × List Error × MergeRes)
  | 0, _, _, _ => none
  | f+1, oldEntry, newEntry, errors =>
    let oldKey := oldEntry.key
    let newKey := newEntry.key
    if oldKey.isPartOf newKey then
      match oldEntry.value with
      | .table t =>
        if t.isInline then
          some (oldEntry, errors, .failed (.inlineTable oldEntry.key newEntry.key))
        else
          let toInsert := newEntry.withKey (newKey.withoutPfx oldKey)
          match mergeF f (t.entries ++ [toInsert]) [] errors with
          | none => none
          | some (es, errors2) =>
            some (oldEntry.withValue (.table (.mk t.stx t.array t.pseudo es)),
              errors2, .merged)
      | .array oldArr =>
        if !oldArr.tables then
          some (oldEntry, errors, .failed (.expectedTableArray oldEntry.key newEntry.key))
        else
          match newEntry.value with
          | .table newT =>
            if oldKey.eqKeys newKey && newT.array then
              let newItem := ValueNode.table (.mk newT.stx false newT.pseudo newT.entries)
              some (oldEntry.withValue
                (.array (.mk oldArr.stx oldArr.tables (oldArr.items ++ [newItem]))),
                errors, .merged)
            else
              match oldArr.items.getLast? with
              | some (.table arrT) =>
                let toInsert := newEntry.withKey (newKey.withoutPfx oldKey)
                match mergeF f (arrT.entries ++ [toInsert]) [] errors with
                | none => none
                | some (es, errors2) =>
                  let newLast := ValueNode.table (.mk arrT.stx arrT.array arrT.pseudo es)
                  some (oldEntry.withValue (.array (.mk oldArr.stx oldArr.tables
                    (oldArr.items.dropLast ++ [newLast]))), errors2, .merged)
              | some _ => none
              | none => none
          | .empty => none
          | _ =>
              match oldArr.items.getLast? with
              | some (.table arrT) =>
                let toInsert := newEntry.withKey (newKey.withoutPfx oldKey)
                match mergeF f (arrT.entries ++ [toInsert]) [] errors with
                | none => none
                | some (es, errors2) =>
                  let newLast := ValueNode.table (.mk arrT.stx arrT.array arrT.pseudo es)
                  some (oldEntry.withValue (.array (.mk oldArr.stx oldArr.tables
                    (oldArr.items.dropLast ++ [newLast]))), errors2, .merged)
              | some _ => none
              | none => none
      | .empty => none
      | _ => some (oldEntry, errors, .failed (.expectedTable oldEntry.key newEntry.key))
    else if newKey.isPartOf oldKey then
      match mergeEntryF f newEntry oldEntry errors with
      | none => none
      | some (newOld, errors2, .merged) => some (newOld, errors2, .merged)
      | some (_, errors2, .distinct) => some (oldEntry, errors2, .distinct)
      | some (_, errors2, .failed e) => some (oldEntry, errors2, .failed e)
    else
      let commonCount := oldEntry.key.commonPfxCount newEntry.key
      if commonCount > 0 then
        let commonPfx := oldEntry.key.outer commonCount
        let a := oldEntry.withKey (oldEntry.key.withoutPfx commonPfx)
        let b := newEntry.withKey (newEntry.key.withoutPfx commonPfx)
        some (EntryNode.mk oldEntry.stx commonPfx
          (.table (.mk oldEntry.stx false true [a, b])), errors, .merged)
      else
        some (oldEntry, errors, .distinct)
/-- Inner loop of Entries::merge: tries merge_entry against each already
collected entry in order; on Ok(true) stops, on Err records the error and
stops, otherwise continues.  The Bool result is should_insert. -/
def tryMergeF : Nat → List EntryNode → EntryNode → List Error →
    Option (List EntryNode × List Error × Bool)
  | 0, _, _, _ => none
  | _+1, [], _, errors => some ([], errors, true)
  | f+1, existing :: rest, entry, errors =>
    match mergeEntryF f existing entry errors with
    | none => none
    | some (existing2, errors2, .merged) => some (existing2 :: rest, errors2, false)
    | some (existing2, errors2, .distinct) =>
      match tryMergeF f rest entry errors2 with
      | none => none
      | some (rest2, errors3, ins) => some (existing2 :: rest2, errors3, ins)
    | some (existing2, errors2, .failed e) =>
      some (existing2 :: rest, errors2 ++ [e], false)
/-- Entries::merge: folds the input entries into `acc` (new_entries),
resetting every key index to 0 and transforming un-merged array tables
into one-element arrays before appending them. -/
def mergeF : Nat → List EntryNode → List EntryNode → List Error →
    Option (List EntryNode × List Error)
  | 0, _, _, _ => none
  | _+1, [], acc, errors => some (acc, errors)
  | f+1, entry :: rest, acc, errors =>
    let entry := entry.withKey (entry.key.withIndex 0)
    match tryMergeF f acc entry errors with
    | none => none
    | some (acc2, errors2, shouldInsert) =>
      if shouldInsert then mergeF f rest (acc2 ++ [arrayTransform entry]) errors2
      else mergeF f rest acc2 errors2
end

/-- One iteration of the while-loop of EntryNode::normalize: bury the value
under a one-entry pseudo-table keyed by the last ident, keeping the
array-of-tables flag, and drop the last ident from the key. -/
def normalizeStep (e : EntryNode) : EntryNode :=
  let newKey := e.key.pfxKey
  let innerKey := e.key.lastKey
  let isArrayTable := match e.value with
    | .table t => t.isPartOfArray
    | _ => false
  let innerEntry := EntryNode.mk e.stx innerKey e.value
  EntryNode.mk e.stx newKey (.table (.mk innerKey.stx isArrayTable true [innerEntry]))

/-- EntryNode::normalize: repeats `normalizeStep` while the key has more
than one ident.  The loop runs at most key_count times, so key_count is
used as the structural counter. -/
def normalizeEntry (e : EntryNode) : EntryNode :=
  go e.key.keyCount e
where
  go : Nat → EntryNode → EntryNode
  | 0, e => e
  | n+1, e => if e.key.keyCount > 1 then go n (normalizeStep e) else e

mutual
/-- Normalization recursion into a value: tables and arrays recurse, all
other values are left unchanged (the work-list traversal of
Entries::normalize, expressed structurally). -/
def normalizeValue : ValueNode → ValueNode
  | .array (.mk s t items) => .array (.mk s t (normalizeItems items))
  | .table (.mk s a p es) => .table (.mk s a p (normalizeEntries es))
  | v => v
def normalizeItems : List ValueNode → List ValueNode
  | [] => []
  | v :: vs => normalizeValue v :: normalizeItems vs
/-- Entries::normalize: every entry is normalized and its value is
recursively normalized.  The source performs EntryNode::normalize first and
then walks into the newly created pseudo-tables with an explicit work-list;
since burying a value in pseudo-tables neither creates new dotted keys nor
changes the value's content, this equals normalizing the value first and
burying afterwards, which is the structural order used here. -/
def normalizeEntries : List EntryNode → List EntryNode
  | [] => []
  | e :: es => normalizeOne e :: normalizeEntries es
def normalizeOne : EntryNode → EntryNode
  | .mk s k v => normalizeEntry (EntryNode.mk s k (normalizeValue v))
end

/-- States of the walk over the children of the ROOT node inside
RootNode::cast: the insertion-ordered entry map, the active header prefix,
the header-to-local-keys map and the error accumulator. -/
structure WalkState where
  entries : List (KeyNode × EntryNode)
  pfx : Option KeyNode
  tables : List (KeyNode × List KeyNode)
  errors : List Error
deriving DecidableEq

/-- IndexMap::contains_key with KeyNode equality (eq_keys plus index). -/
def imContains (m : List (KeyNode × α)) (k : KeyNode) : Bool :=
  m.any fun p => p.1.keyEq k

/-- IndexMap::get with KeyNode equality. -/
def imGet (m : List (KeyNode × α)) (k : KeyNode) : Option α :=
  (m.find? fun p => p.1.keyEq k).map Prod.snd

/-- IndexMap::insert: replaces the value of an existing equal key in place
(keeping the original key and position), otherwise appends. -/
def imInsert (m : List (KeyNode × α)) (k : KeyNode) (v : α) : List (KeyNode × α) :=
  match m with
  | [] => [(k, v)]
  | p :: rest => if p.1.keyEq k then (p.1, v) :: rest else p :: imInsert rest k v

/-- Recording of an entry-local key under the active header prefix
(the tables.get_mut(p) update in the ENTRY arm of the walk). -/
def imPushUnder (m : List (KeyNode × List KeyNode)) (p k : KeyNode) :
    List (KeyNode × List KeyNode) :=
  match m with
  | [] => [(p, [k])]
  | q :: rest => if q.1.keyEq p then (q.1, q.2 ++ [k]) :: rest else q :: imPushUnder rest p k

/-- One step of the walk over a top-level child of ROOT inside
RootNode::cast: headers insert themselves (or record a conflict error) and
always advance the prefix; entries are qualified by the prefix, recorded in
`tables`, and inserted unless the qualified key already exists; everything
else is ignored. -/
def walkStep (f : Nat) (st : WalkState) (child : Syn) : WalkState :=
  match child.kind with
  | .TABLE_HEADER | .TABLE_ARRAY_HEADER =>
    match castTableF f child with
    | none => st
    | some t =>
      match t.stx.firstChild >>= castKeyNode with
      | none =>
        { st with errors := st.errors ++ [.spanned t.stx "table has no key".toList] }
      | some key =>
        match st.entries.reverse.find? (fun p => p.1.eqKeys key) with
        | some (existingKey, existing) =>
          let existingTableArray := match existing.value with
            | .table t2 => t2.isPartOfArray
            | _ => false
          if existingTableArray && !t.isPartOfArray then
            { st with
              errors := st.errors ++ [.expectedTableArray existing.key key]
              pfx := some key }
          else if !existingTableArray && t.isPartOfArray then
            { st with
              errors := st.errors ++ [.expectedTableArray key existing.key]
              pfx := some key }
          else if !existingTableArray && !t.isPartOfArray then
            { st with
              errors := st.errors ++ [.duplicateKey existing.key key]
              pfx := some key }
          else
            let key2 := key.withIndex (existingKey.index + 1)
            { st with
              entries := imInsert st.entries key2 (.mk t.stx key2 (.table t))
              pfx := some key2 }
        | none =>
          { st with
            entries := imInsert st.entries key (.mk t.stx key (.table t))
            pfx := some key }
  | .ENTRY =>
    match castEntryF f child with
    | none => st
    | some entry =>
      let insertKey := match st.pfx with
        | none => entry.key
        | some p => entry.key.withPfx p
      let tables2 := match st.pfx with
        | none => st.tables
        | some p => imPushUnder st.tables p entry.key
      match imGet st.entries insertKey with
      | some existing =>
        { st with
          tables := tables2
          errors := st.errors ++ [.duplicateKey existing.key entry.key] }
      | none =>
        { st with
          tables := tables2
          entries := imInsert st.entries insertKey entry }
  | _ => st

/-- Errors of the mixed top-level-table / dotted-key check of
RootNode::cast, in the order the check pushes them. -/
def mixedCheckErrors (tables : List (KeyNode × List KeyNode)) : List Error :=
  tables.flatMap fun q =>
    q.2.flatMap fun e =>
      tables.filterMap fun q2 =>
        if q.1.index ≠ q2.1.index ∨ q.1.keyEq q2.1 ∨ q2.1.keyCount < q.1.keyCount then
          none
        else if q2.1.isPartOf (e.withPfx q.1) then
          some (.duplicateKey q.1 q2.1)
        else none

/-- Grouping of the walked entries by key index (the fold building
grouped_by_index in RootNode::cast): a new singleton group is appended when
the vector is shorter than index + 1, otherwise the entry joins the group
at position index. -/
def groupedByIndex (entries : List (KeyNode × EntryNode)) :
    List (List (KeyNode × EntryNode)) :=
  entries.foldl
    (fun all p =>
      if all.length < p.1.index + 1 then all ++ [[p]]
      else all.mapIdx fun j g => if j = p.1.index then g ++ [p] else g)
    []

/-- Intra-group table-array versus table check of RootNode::cast: due to the
unconditional break of the labelled outer loop, only the first element of
the first non-empty group is examined (and only when that group has
position 0): if it is not an array table, the first later entry of the
group whose key is_part_of its key and whose value is an array table is
reported as ExpectedTableArray. -/
def introCheck (grouped : List (List (KeyNode × EntryNode))) : List Error :=
  go grouped 0
where
  go : List (List (KeyNode × EntryNode)) → Nat → List Error
  | [], _ => []
  | [] :: gs, i => go gs (i + 1)
  | (p :: rest) :: _, i =>
    if i = 0 then
      let isTableArray := match p.2.value with
        | .table t => t.isPartOfArray
        | _ => false
      if !isTableArray then
        match (p :: rest).find? (fun q => match q.2.value with
          | .table t => q.1.isPartOf p.1 && t.isPartOfArray
          | _ => false) with
        | some q => [.expectedTableArray q.1 p.1]
        | none => []
      else []
    else []

/-- Entries::from_map: the map is flattened to its entries, each entry's
key overwritten by its (fully qualified) map key. -/
def entriesFromMap (m : List (KeyNode × EntryNode)) : List EntryNode :=
  m.map fun p => p.2.withKey p.1

/-- Post-walk bookkeeping of RootNode::cast: a prefix that never appeared
in `tables` is recorded with an empty vector. -/
def walkFinishTables (st : WalkState) : WalkState :=
  match st.pfx with
  | some p =>
    if imContains st.tables p then st else { st with tables := st.tables ++ [(p, [])] }
  | none => st

/-- Walk phase of RootNode::cast: fold over the top-level children, then
record an empty vector for a prefix never seen in `tables`, then run the
mixed check and the intra-group check. -/
def walkRoot (f : Nat) (s : Syn) : WalkState :=
  let st := walkFinishTables
    (s.childrenWithTokens.foldl (walkStep f) ⟨[], none, [], []⟩)
  let st2 := { st with errors := st.errors ++ mixedCheckErrors st.tables }
  { st2 with errors := st2.errors ++ introCheck (groupedByIndex st2.entries) }

/-- The root of the DOM (dom::RootNode). -/
structure RootNode where
  stx : Syn
  errors : List Error
  entries : List EntryNode
deriving DecidableEq

/-- RootNode::cast: `none` for any element that is not a ROOT node;
otherwise walk the children, and when no error was recorded run merge and
normalize on the collected entries.  The single fuel bounds the recursion
of the cast and merge engines; `none` for a ROOT node can only arise from
fuel exhaustion or from a panic path of merge. -/
def castRootF (f : Nat) (s : Syn) : Option RootNode :=
  if s.kind ≠ SynKind.ROOT then none
  else if !s.isNode then none
  else
    let st := walkRoot f s
    let finalEntries := entriesFromMap st.entries
    if st.errors.isEmpty then
      match mergeF f finalEntries [] st.errors with
      | none => none
      | some (merged, errors) => some ⟨s, errors, normalizeEntries merged⟩
    else some ⟨s, st.errors, finalEntries⟩

/-- Items that are tables with the array flag cleared: the shape of array
of tables elements. -/
def isPlainTable : ValueNode → Bool
  | .table t => !t.array
  | _ => false

/-- Well-formed item lists for arrays of tables: non-empty and every item a
plain table. -/
def itemsAreTables (items : List ValueNode) : Bool :=
  !items.isEmpty && items.all isPlainTable

mutual
/-- Well-formedness invariant of constructed values: no Empty placeholder
anywhere, every array with the tables flag holds a non-empty list of plain
tables, and every entry key inside has at least one ident. -/
def wfV : ValueNode → Bool
  | .bool _ => true
  | .strv _ _ _ => true
  | .integer _ _ => true
  | .float _ => true
  | .date _ => true
  | .empty => false
  | .array (.mk _ tables items) => (!tables || itemsAreTables items) && wfItems items
  | .table (.mk _ _ _ es) => wfEs es
def wfItems : List ValueNode → Bool
  | [] => true
  | v :: vs => wfV v && wfItems vs
def wfEs : List EntryNode → Bool
  | [] => true
  | (.mk _ k v) :: es => (!k.idents.isEmpty) && wfV v && wfEs es
end

/-- Well-formedness of one entry. -/
def wfE (e : EntryNode) : Bool :=
  (!e.key.idents.isEmpty) && wfV e.value

mutual
/-- C3's invariant: every array value whose tables flag is true has items
that are all tables with the array flag false, at any depth. -/
def aotOkV : ValueNode → Bool
  | .array (.mk _ tables items) => (!tables || items.all isPlainTable) && aotOkItems items
  | .table (.mk _ _ _ es) => aotOkEs es
  | _ => true
def aotOkItems : List ValueNode → Bool
  | [] => true
  | v :: vs => aotOkV v && aotOkItems vs
def aotOkEs : List EntryNode → Bool
  | [] => true
  | (.mk _ _ v) :: es => aotOkV v && aotOkEs es
end

mutual
/-- C2's invariant: every entry contained in a table, at any depth, has a
key with exactly one ident. -/
def norm1V : ValueNode → Bool
  | .array (.mk _ _ items) => norm1Items items
  | .table (.mk _ _ _ es) => norm1Tab es
  | _ => true
def norm1Items : List ValueNode → Bool
  | [] => true
  | v :: vs => norm1V v && norm1Items vs
def norm1Tab : List EntryNode → Bool
  | [] => true
  | (.mk _ k v) :: es => (k.idents.length == 1) && norm1V v && norm1Tab es
end

/-- C2's conclusion at the root: the invariant holds of every top-level
value (top-level keys are not entries of a Table and are not constrained by
the claim). -/
def norm1Root (es : List EntryNode) : Bool :=
  es.all fun e => norm1V e.value

mutual
/-- Weighted size of values, used to bound the merge recursion: idents
weigh two, array-of-tables flagged tables weigh one extra so that the
array transformation of Entries::merge does not increase sizes. -/
def sizeV : ValueNode → Nat
  | .array (.mk _ _ items) => 1 + sizeVs items
  | .table (.mk _ a _ es) => (if a then 2 else 1) + sizeEs es
  | _ => 1
def sizeVs : List ValueNode → Nat
  | [] => 0
  | v :: vs => sizeV v + sizeVs vs
def sizeEs : List EntryNode → Nat
  | [] => 0
  | (.mk _ k v) :: es => 2 * k.idents.length + sizeV v + sizeEs es
end

/-- Weighted size of one entry. -/
def sizeE (e : EntryNode) : Nat :=
  2 * e.key.idents.length + sizeV e.value

mutual
/-- Number of syntax elements of an element, bounding the cast recursion. -/
def synSize : Syn → Nat
  | .tok _ _ => 1
  | .node _ cs => 1 + synSizeList cs
def synSizeList : List Syn → Nat
  | [] => 0
  | c :: cs => synSize c + synSizeList cs
end

/-- Scalar values: everything that is neither a table, an array nor the
empty placeholder. -/
def isScalar : ValueNode → Bool
  | .bool _ => true
  | .strv _ _ _ => true
  | .integer _ _ => true
  | .float _ => true
  | .date _ => true
  | _ => false

/-- Kinds whose cast arms unwrap the element as a node: RootNode::cast
(dom.rs:152), TableNode::cast on headers and inline tables (dom.rs:423,
443-444, 450), ArrayNode::cast (dom.rs:777, 782, 787) and EntryNode::cast
(dom.rs:855-856, 866, 879) call into_node()/as_node().unwrap() on any
element of the matching kind, panicking when it is a token. -/
def kindNeedsNode : SynKind → Bool
  | .ROOT => true
  | .TABLE_HEADER => true
  | .TABLE_ARRAY_HEADER => true
  | .INLINE_TABLE => true
  | .ENTRY => true
  | .ARRAY => true
  | _ => false

/-- Kinds whose cast arms unwrap the element as a token: StringNode::cast
(dom.rs:1300 and the other string arms) and IntegerNode::cast (dom.rs:1242
and the other integer arms) call as_token()/into_token().unwrap(),
panicking on a node of the matching kind; the dom_primitives casts for
BOOL, FLOAT and DATE (their macro body is not part of this repository) are
kept alongside them. -/
def kindNeedsTok : SynKind → Bool
  | .STRING => true
  | .MULTI_LINE_STRING => true
  | .STRING_LITERAL => true
  | .MULTI_LINE_STRING_LITERAL => true
  | .INTEGER => true
  | .INTEGER_BIN => true
  | .INTEGER_HEX => true
  | .INTEGER_OCT => true
  | .BOOL => true
  | .FLOAT => true
  | .DATE => true
  | _ => false

/-- Kind-consistency of a tree: no element anywhere pairs a node-unwrapped
kind with a token, or a token-unwrapped kind with a node.  Every tree the
parser produces is kind-consistent; on a kind-inconsistent tree the source
panics inside the corresponding child cast instead of returning, an abort
that the fuel model does not track below the root element itself. -/
def kindConsistent (s : Syn) : Bool :=
  (synDescendants s).all fun c =>
    (!kindNeedsNode c.kind || c.isNode) && (!kindNeedsTok c.kind || !c.isNode)

/-- Trimming of surrounding quotes "exactly once", following the words of
the spec ("the token's literal text with surrounding double or single
quotes trimmed exactly once"), for comparison with the source's
`stripQuotes`. -/
def specTrimOnce (s : Str) : Str :=
  if 2 ≤ s.length ∧ s.head? = some '"' ∧ s.getLast? = some '"' then (s.drop 1).dropLast
  else if 2 ≤ s.length ∧ s.head? = some '\'' ∧ s.getLast? = some '\'' then (s.drop 1).dropLast
  else s

/-- Fixture: an IDENT token element. -/
def identTok (s : Str) : Syn := .tok .IDENT s

/-- Fixture: a KEY node with the given ident texts. -/
def keySyn (ids : List Str) : Syn := .node .KEY (ids.map identTok)

/-- Fixture: an INTEGER token element. -/
def intTok (s : Str) : Syn := .tok .INTEGER s

/-- Fixture: an ENTRY node binding a (possibly dotted) key to a value. -/
def entrySyn (ids : List Str) (v : Syn) : Syn :=
  .node .ENTRY [keySyn ids, .node .VALUE [v]]

/-- Fixture for C1: the document `a.b = 1` followed by `a.c = 2`. -/
def c1Input : Syn :=
  .node .ROOT [entrySyn [['a'], ['b']] (intTok ['1']),
    entrySyn [['a'], ['c']] (intTok ['2'])]

/-- Fixture for C4: the document `a = { x = 1 }`, `[a.b]`, `y = 2`. -/
def c4Input : Syn :=
  .node .ROOT
    [entrySyn [['a']] (.node .INLINE_TABLE [entrySyn [['x']] (intTok ['1'])]),
     .node .TABLE_HEADER [keySyn [['a'], ['b']]],
     entrySyn [['y']] (intTok ['2'])]

/-- Fixture for C6: an entry `a` whose value is a plain array (tables
flag false). -/
def c6OldEntry : EntryNode :=
  .mk (entrySyn [['a']] (intTok ['0'])) ⟨keySyn [['a']], [⟨.IDENT, ['a']⟩], 0⟩
    (.array (.mk (.node .ARRAY []) false []))

/-- Fixture for C6: an entry `a.b` with an integer value. -/
def c6NewEntry : EntryNode :=
  .mk (entrySyn [['a'], ['b']] (intTok ['1']))
    ⟨keySyn [['a'], ['b']], [⟨.IDENT, ['a']⟩, ⟨.IDENT, ['b']⟩], 0⟩
    (.integer ⟨.INTEGER, ['1']⟩ .Dec)

/-- Fixture for C8: a KEY node with the single ident token text a-quote
a double-quote double-quote, on which trimming all and trimming once
differ. -/
def c8KeySyn : Syn := .node .KEY [.tok .IDENT ['"', 'a', '"', '"']]

/-- Fixture for C2 and C5: the document `a = 1`, `a = 2` (a duplicate key,
so the walk records an error) followed by `b = { x.y = 1 }` (an inline
table with a dotted key). -/
def c2Input : Syn :=
  .node .ROOT
    [entrySyn [['a']] (intTok ['1']),
     entrySyn [['a']] (intTok ['2']),
     entrySyn [['b']] (.node .INLINE_TABLE [entrySyn [['x'], ['y']] (intTok ['1'])])]

/-- Fixture: an entry `a` with a scalar (integer) value. -/
def c6ScalarOld : EntryNode :=
  .mk (entrySyn [['a']] (intTok ['0'])) ⟨keySyn [['a']], [⟨.IDENT, ['a']⟩], 0⟩
    (.integer ⟨.INTEGER, ['0']⟩ .Dec)

/-- Observation for C2: the key part counts of the entries of an entry's
table value (empty for non-table values). -/
def tableKeyCounts (e : EntryNode) : List Nat :=
  match e.value with
  | .table t => t.entries.map fun e2 => e2.key.keyCount
  | _ => []

instance : DecidableEq (Bool × Bool × List (List Str × ValueNode)) :=
  fun a b => instDecidableEqProd a b

instance : DecidableEq (List Str × Option (Bool × Bool × List (List Str × ValueNode))) :=
  fun a b => instDecidableEqProd a b

instance : DecidableEq (List (Option (List Str × List Str)) ×
    List (List Str × Option (Bool × Bool × List (List Str × ValueNode)))) :=
  fun a b => instDecidableEqProd a b

/-- Observation of an entry for the scenario theorems: its unquoted key
parts and, when its value is a table, the table's pseudo flag, inline
flag and the key parts and values of its entries. -/
def entryShape (e : EntryNode) :
    List Str × Option (Bool × Bool × List (List Str × ValueNode)) :=
  (e.key.keysStr,
   match e.value with
   | .table t => some (t.pseudo, t.isInline,
       t.entries.map fun e2 => (e2.key.keysStr, e2.value))
   | _ => none)

/-- Observation of an error for the scenario theorems: InlineTable errors
are shown as the key parts of their target and key, everything else as
none. -/
def inlineErrShape : Error → Option (List Str × List Str)
  | .inlineTable t k => some (t.keysStr, k.keysStr)
  | _ => none

/-!  Theorems.  -/

section KeyTheorems

/-- Pairwise Bool-equality over a zip is symmetric in its two lists. -/
theorem zipAllEqComm (l1 l2 : List Str) :
    ((l1.zip l2).all fun p => p.1 = p.2) = ((l2.zip l1).all fun p => p.1 = p.2) := by
  induction l1 generalizing l2 with
  | nil => cases l2 <;> rfl
  | cons x xs ih =>
    cases l2 with
    | nil => rfl
    | cons y ys =>
      simp only [List.zip_cons_cons, List.all_cons, ih]
      congr 1
      exact decide_eq_decide.mpr eq_comm

/-- C7: for every pair of constructed keys, is_part_of holds in both
directions exactly when eq_keys holds (equality of the unquoted ident
sequences, ignoring the index). -/
theorem c7_mutual_isPartOf_iff_eqKeys (a b : KeyNode) :
    (a.isPartOf b = true ∧ b.isPartOf a = true) ↔ a.eqKeys b = true := by
  simp only [KeyNode.eqKeys, KeyNode.isPartOf, KeyNode.keyCount, Bool.and_eq_true,
    decide_eq_true_eq]
  constructor
  · rintro ⟨h1, h2⟩
    split at h1
    · cases h1
    · split at h2
      · cases h2
      · have hab : a.idents.length = b.idents.length := by omega
        refine ⟨hab, ?_⟩
        rw [if_neg (by omega)]
        exact h1
  · rintro ⟨hab, h1⟩
    rw [if_neg (by omega)] at h1
    refine ⟨by rw [if_neg (by omega)]; exact h1, ?_⟩
    rw [if_neg (by omega), zipAllEqComm]
    exact h1

/-- Heads surviving dropWhile fail the predicate. -/
theorem head_dropWhile_ne (p : Char → Bool) (l : Str) (x : Char)
    (h : (l.dropWhile p).head? = some x) : p x = false := by
  induction l with
  | nil => simp [List.dropWhile] at h
  | cons a as ih =>
    rw [List.dropWhile_cons] at h
    cases hp : p a with
    | true =>
      rw [hp] at h
      simp only [if_true] at h
      exact ih h
    | false =>
      rw [hp] at h
      simp only [Bool.false_eq_true, if_false, List.head?_cons, Option.some.injEq] at h
      subst h
      exact hp

/-- The function trimEnd is rdropWhile. -/
theorem trimEnd_eq_rdropWhile (c : Char) (s : Str) :
    KeyNode.trimEnd c s = s.rdropWhile (· = c) := rfl

/-- Trimming trailing occurrences leaves no trailing occurrence. -/
theorem getLast_trimEnd_ne (c : Char) (s : Str) (x : Char)
    (h : (KeyNode.trimEnd c s).getLast? = some x) : x ≠ c := by
  rw [trimEnd_eq_rdropWhile] at h
  have hne : s.rdropWhile (· = c) ≠ [] := by
    intro hnil; rw [hnil] at h; cases h
  have hlast := List.rdropWhile_last_not (· = c) s hne
  rw [List.getLast?_eq_getLast _ hne] at h
  cases h
  simpa using hlast

/-- Trimming trailing occurrences preserves the head. -/
theorem head_trimEnd_eq (c : Char) (s : Str) (x : Char)
    (h : (KeyNode.trimEnd c s).head? = some x) : s.head? = some x := by
  rw [trimEnd_eq_rdropWhile] at h
  obtain ⟨t, ht⟩ := List.rdropWhile_prefix (· = c) (l := s)
  cases hcase : s.rdropWhile (· = c) with
  | nil => rw [hcase] at h; cases h
  | cons y ys =>
    rw [hcase] at h ht
    rw [← ht]
    simpa using h

/-- Results of trimRun neither start nor end with the trimmed character. -/
theorem trimRun_no_quotes (c : Char) (s : Str) :
    (KeyNode.trimRun c s).head? ≠ some c ∧ (KeyNode.trimRun c s).getLast? ≠ some c := by
  constructor
  · intro h
    have hh := head_trimEnd_eq c _ _ h
    have := head_dropWhile_ne (· = c) s c hh
    simp at this
  · intro h
    exact getLast_trimEnd_ne c _ _ h rfl

/-- C8 (amended): keys_str yields exactly key_count strings; a part whose
token text begins with a double quote has its entire leading and trailing
runs of double quotes removed (so it never retains them), and when the
double-stripped text does not begin with a single quote it is the final
string; a part whose text begins with a single quote (and not a double
quote) likewise never retains surrounding single quotes. -/
theorem c8_keysStr_lengths_and_quotes (k : KeyNode) :
    (k.keysStr.length = k.keyCount) ∧
    (∀ t ∈ k.idents, t.text.head? = some '"' →
      (KeyNode.trimRun '"' t.text).head? ≠ some '"' ∧
      (KeyNode.trimRun '"' t.text).getLast? ≠ some '"' ∧
      ((KeyNode.trimRun '"' t.text).head? ≠ some '\'' →
        KeyNode.stripQuotes t.text = KeyNode.trimRun '"' t.text)) ∧
    (∀ t ∈ k.idents, t.text.head? ≠ some '"' → t.text.head? = some '\'' →
      (KeyNode.stripQuotes t.text).head? ≠ some '\'' ∧
      (KeyNode.stripQuotes t.text).getLast? ≠ some '\'') := by
  refine ⟨by simp [KeyNode.keysStr, KeyNode.keyCount], ?_, ?_⟩
  · intro t _ hdq
    obtain ⟨h1, h2⟩ := trimRun_no_quotes '"' t.text
    refine ⟨h1, h2, ?_⟩
    intro hsq
    simp only [KeyNode.stripQuotes]
    rw [if_pos hdq, if_neg hsq]
  · intro t _ hnd hsq
    simp only [KeyNode.stripQuotes]
    rw [if_neg hnd, if_pos hsq]
    exact trimRun_no_quotes '\'' t.text

/-- Witness for the amended C8 theorem at the key with the single ident
token text quote-a-quote-quote. -/
theorem c8_keysStr_lengths_and_quotes_witness :
    (KeyNode.trimRun '"' ['"', 'a', '"', '"']).head? ≠ some '"' ∧
    (KeyNode.trimRun '"' ['"', 'a', '"', '"']).getLast? ≠ some '"' := by
  have h := (c8_keysStr_lengths_and_quotes
      ⟨c8KeySyn, [⟨.IDENT, ['"', 'a', '"', '"']⟩], 0⟩).2.1
    ⟨.IDENT, ['"', 'a', '"', '"']⟩ (by simp) (by decide)
  exact ⟨h.1, h.2.1⟩

/-- C8 (counterexample): the constructed key over the single IDENT token
with text quote-a-quote-quote yields the part `a` (all surrounding quotes
trimmed), not the part `a"` that trimming the quotes exactly once would
give. -/
theorem c8_counterexample :
    (castKeyNode c8KeySyn).map KeyNode.keysStr = some [['a']] ∧
    (castKeyNode c8KeySyn).map KeyNode.keysStr ≠
      some [specTrimOnce ['"', 'a', '"', '"']] := by decide

end KeyTheorems

section ScenarioTheorems

/-- C1: building the root of `a.b = 1` then `a.c = 2` produces no errors
and exactly one top-level entry `a` whose value is a pseudo table holding
`b = 1` and `c = 2` in that order. -/
theorem c1_pseudo_table_from_shared_dotted_keys :
    (castRootF 20 c1Input).map (fun r => (r.errors, r.entries.map entryShape))
    = some ([], [([['a']], some (true, false,
        [([['b']], .integer ⟨.INTEGER, ['1']⟩ .Dec),
         ([['c']], .integer ⟨.INTEGER, ['2']⟩ .Dec)]))]) := by decide

/-- C4 (counterexample): on `a = {x = 1}`, `[a.b]`, `y = 2` the root
reports two InlineTable errors (for the header `a.b` and for the entry
`a.b.y`), not exactly one. -/
theorem c4_counterexample :
    (castRootF 20 c4Input).map (fun r => r.errors.map inlineErrShape)
    = some [some ([['a']], [['a'], ['b']]),
            some ([['a']], [['a'], ['b'], ['y']])] ∧
    (castRootF 20 c4Input).map (fun r => r.errors.length) ≠ some 1 := by decide

/-- C4 (amended): on `a = {x = 1}`, `[a.b]`, `y = 2` the root reports
exactly two errors, InlineTable with target `a` and key `a.b` followed by
InlineTable with target `a` and key `a.b.y`, and the entry `a` remains the
unchanged inline table containing only `x = 1`. -/
theorem c4_inline_table_errors_and_unchanged :
    (castRootF 20 c4Input).map (fun r =>
      (r.errors.map inlineErrShape, r.entries.map entryShape))
    = some ([some ([['a']], [['a'], ['b']]),
             some ([['a']], [['a'], ['b'], ['y']])],
        [([['a']], some (false, true,
          [([['x']], .integer ⟨.INTEGER, ['1']⟩ .Dec)]))]) := by decide

/-- C6 (counterexample): with old entry `a` carrying a plain array (tables
flag false) and new entry `a.b`, merge_entry returns the error
ExpectedTableArray, not ExpectedTable. -/
theorem c6_counterexample :
    mergeEntryF 5 c6OldEntry c6NewEntry []
      = some (c6OldEntry, [],
        .failed (.expectedTableArray c6OldEntry.key c6NewEntry.key)) ∧
    mergeEntryF 5 c6OldEntry c6NewEntry []
      ≠ some (c6OldEntry, [],
        .failed (.expectedTable c6OldEntry.key c6NewEntry.key)) := by decide

/-- C6 (amended): when old.key is_part_of new.key and old.value is a
scalar, merge_entry returns ExpectedTable{target = old.key, key = new.key};
when old.value is an Array with tables = false it returns
ExpectedTableArray{target = old.key, key = new.key} instead. -/
theorem c6_descend_scalar_errors :
    (∀ f old new errs, old.key.isPartOf new.key = true → isScalar old.value = true →
       mergeEntryF (f+1) old new errs
         = some (old, errs, .failed (.expectedTable old.key new.key))) ∧
    (∀ f old new errs a, old.key.isPartOf new.key = true → old.value = .array a →
       a.tables = false →
       mergeEntryF (f+1) old new errs
         = some (old, errs, .failed (.expectedTableArray old.key new.key))) := by
  constructor
  · intro f old new errs hpart hscalar
    unfold mergeEntryF
    simp only [hpart, if_true]
    cases hv : old.value <;> simp_all [isScalar]
  · intro f old new errs a hpart hv htables
    unfold mergeEntryF
    simp only [hpart, if_true, hv]
    simp [htables]

/-- Witness for the amended C6 theorem at the scalar entry `a = 0` against
the entry `a.b = 1`. -/
theorem c6_descend_scalar_errors_witness :
    mergeEntryF 1 c6ScalarOld c6NewEntry []
      = some (c6ScalarOld, [],
        .failed (.expectedTable c6ScalarOld.key c6NewEntry.key)) :=
  c6_descend_scalar_errors.1 0 c6ScalarOld c6NewEntry [] (by decide) (by decide)

/-- C2 (counterexample): on the syntactically valid document `a = 1`,
`a = 2`, `b = { x.y = 1 }` the walk records an error, merge and normalize
are skipped, and the resulting DOM contains the inline table value of `b`
whose entry key `x.y` has two idents, not one. -/
theorem c2_counterexample :
    (castRootF 20 c2Input).map (fun r => r.entries.map tableKeyCounts)
      = some [[], [2]] ∧
    (castRootF 20 c2Input).map (fun r => r.errors.isEmpty) = some false := by decide

end ScenarioTheorems

section WalkTheorems

/-- C9: a TABLE_HEADER or TABLE_ARRAY_HEADER child whose table (and hence
key) casts successfully always sets the prefix to that header's key with
some index, whether or not its insertion happened; and an ENTRY child seen
under an active prefix keeps that prefix and, when inserted, is inserted
under its key qualified with the prefix. -/
theorem c9_header_advances_pfx :
    (∀ f st child t key,
      (child.kind = SynKind.TABLE_HEADER ∨ child.kind = SynKind.TABLE_ARRAY_HEADER) →
      castTableF f child = some t →
      (t.stx.firstChild >>= castKeyNode) = some key →
      ∃ n, (walkStep f st child).pfx = some (key.withIndex n)) ∧
    (∀ f st child e p,
      child.kind = SynKind.ENTRY →
      castEntryF f child = some e →
      st.pfx = some p →
      (walkStep f st child).pfx = some p ∧
      ((walkStep f st child).entries = st.entries ∨
       (walkStep f st child).entries = imInsert st.entries (e.key.withPfx p) e)) := by
  constructor
  · intro f st child t key hk ht hkey
    have hwalk : walkStep f st child = (match castTableF f child with
      | none => st
      | some t =>
        match t.stx.firstChild >>= castKeyNode with
        | none =>
          { st with errors := st.errors ++ [.spanned t.stx "table has no key".toList] }
        | some key =>
          match st.entries.reverse.find? (fun p => p.1.eqKeys key) with
          | some (existingKey, existing) =>
            let existingTableArray := match existing.value with
              | .table t2 => t2.isPartOfArray
              | _ => false
            if existingTableArray && !t.isPartOfArray then
              { st with
                errors := st.errors ++ [.expectedTableArray existing.key key]
                pfx := some key }
            else if !existingTableArray && t.isPartOfArray then
              { st with
                errors := st.errors ++ [.expectedTableArray key existing.key]
                pfx := some key }
            else if !existingTableArray && !t.isPartOfArray then
              { st with
                errors := st.errors ++ [.duplicateKey existing.key key]
                pfx := some key }
            else
              let key2 := key.withIndex (existingKey.index + 1)
              { st with
                entries := imInsert st.entries key2 (.mk t.stx key2 (.table t))
                pfx := some key2 }
          | none =>
            { st with
              entries := imInsert st.entries key (.mk t.stx key (.table t))
              pfx := some key }) := by
      rcases hk with hk | hk <;> · unfold walkStep; rw [hk]
    rw [hwalk]
    simp only [ht, hkey]
    cases hfind : st.entries.reverse.find? (fun p => p.1.eqKeys key) with
    | none =>
      simp only [hfind]
      exact ⟨key.index, rfl⟩
    | some q =>
      obtain ⟨existingKey, existing⟩ := q
      simp only [hfind]
      split
      · exact ⟨key.index, rfl⟩
      · split
        · exact ⟨key.index, rfl⟩
        · split
          · exact ⟨key.index, rfl⟩
          · exact ⟨existingKey.index + 1, rfl⟩
  · intro f st child e p hk he hp
    have hwalk : walkStep f st child = (match castEntryF f child with
      | none => st
      | some entry =>
        let insertKey := match st.pfx with
          | none => entry.key
          | some p => entry.key.withPfx p
        let tables2 := match st.pfx with
          | none => st.tables
          | some p => imPushUnder st.tables p entry.key
        match imGet st.entries insertKey with
        | some existing =>
          { st with
            tables := tables2
            errors := st.errors ++ [.duplicateKey existing.key entry.key] }
        | none =>
          { st with
            tables := tables2
            entries := imInsert st.entries insertKey entry }) := by
      unfold walkStep; rw [hk]
    rw [hwalk]
    simp only [he, hp]
    cases hget : imGet st.entries (e.key.withPfx p) with
    | some existing =>
      simp only [hget]
      exact ⟨trivial, Or.inl trivial⟩
    | none =>
      simp only [hget]
      exact ⟨trivial, Or.inr trivial⟩

/-- Witness for C9 at the header `[a]` over the empty walk state. -/
theorem c9_header_advances_pfx_witness :
    ∃ n, (walkStep 5 ⟨[], none, [], []⟩ (.node .TABLE_HEADER [keySyn [['a']]])).pfx
      = some ((⟨keySyn [['a']], [⟨.IDENT, ['a']⟩], 0⟩ : KeyNode).withIndex n) :=
  c9_header_advances_pfx.1 5 ⟨[], none, [], []⟩ (.node .TABLE_HEADER [keySyn [['a']]])
    (.mk (.node .TABLE_HEADER [keySyn [['a']]]) false false [])
    ⟨keySyn [['a']], [⟨.IDENT, ['a']⟩], 0⟩
    (Or.inl rfl) (by decide) (by decide)

/-- Case analysis of RootNode::cast: with no walk errors the entries are
merged and normalized, otherwise the flat entries and the walk errors are
returned unchanged. -/
theorem castRootF_structure (f : Nat) (s : Syn) (r : RootNode)
    (h : castRootF f s = some r) :
    ((walkRoot f s).errors = [] →
      ∃ merged errs2,
        mergeF f (entriesFromMap (walkRoot f s).entries) [] (walkRoot f s).errors
          = some (merged, errs2) ∧
        r = ⟨s, errs2, normalizeEntries merged⟩) ∧
    ((walkRoot f s).errors ≠ [] →
      r = ⟨s, (walkRoot f s).errors, entriesFromMap (walkRoot f s).entries⟩) := by
  simp only [castRootF] at h
  split at h
  · cases h
  · split at h
    · cases h
    · constructor
      · intro he
        rw [he] at h
        simp only [List.isEmpty_nil, if_true] at h
        rw [he]
        cases hm : mergeF f (entriesFromMap (walkRoot f s).entries) [] [] with
        | none =>
          rw [hm] at h
          cases h
        | some q =>
          obtain ⟨merged, errs2⟩ := q
          rw [hm] at h
          cases h
          exact ⟨merged, errs2, rfl, rfl⟩
      · intro he
        rw [if_neg (by simpa [List.isEmpty_iff] using he)] at h
        cases h
        rfl

/-- C5: a constructed root ran merge followed by normalize on the entries
collected by the walk exactly when the walk recorded no errors; with walk
errors present, the flat, un-merged, un-normalized entries and the walk
errors are returned unchanged. -/
theorem c5_merge_normalize_gated_on_walk_errors (f : Nat) (s : Syn) (r : RootNode)
    (h : castRootF f s = some r) :
    ((walkRoot f s).errors = [] →
      ∃ merged errs2,
        mergeF f (entriesFromMap (walkRoot f s).entries) [] (walkRoot f s).errors
          = some (merged, errs2) ∧
        r = ⟨s, errs2, normalizeEntries merged⟩) ∧
    ((walkRoot f s).errors ≠ [] →
      r = ⟨s, (walkRoot f s).errors, entriesFromMap (walkRoot f s).entries⟩) :=
  castRootF_structure f s r h

/-- Witness for C5 at the duplicate-key document, where the walk records an
error and the flat entries are returned. -/
theorem c5_merge_normalize_gated_witness :
    castRootF 20 c2Input
      = some ⟨c2Input, (walkRoot 20 c2Input).errors,
          entriesFromMap (walkRoot 20 c2Input).entries⟩ := by
  cases hr : castRootF 20 c2Input with
  | none => exact absurd hr (by decide)
  | some r =>
    have h2 := (c5_merge_normalize_gated_on_walk_errors 20 c2Input r hr).2 (by decide)
    rw [h2]

end WalkTheorems

section InvariantLemmas

/-- Unfolding of wfEs over cons in terms of wfE. -/
theorem wfEs_cons (e : EntryNode) (es : List EntryNode) :
    wfEs (e :: es) = (wfE e && wfEs es) := by
  cases e; rfl

/-- The predicate wfEs is the conjunction of wfE over the members. -/
theorem wfEs_iff : ∀ l : List EntryNode, wfEs l = true ↔ ∀ e ∈ l, wfE e = true
  | [] => by simp [wfEs]
  | e :: es => by
      rw [wfEs_cons]
      simp only [Bool.and_eq_true, List.mem_cons, wfEs_iff es]
      constructor
      · rintro ⟨he, hrest⟩ x hx
        rcases hx with rfl | hx
        · exact he
        · exact hrest x hx
      · intro h
        exact ⟨h e (Or.inl rfl), fun x hx => h x (Or.inr hx)⟩

/-- The predicate wfItems is the conjunction of wfV over the members. -/
theorem wfItems_iff : ∀ l : List ValueNode, wfItems l = true ↔ ∀ v ∈ l, wfV v = true
  | [] => by simp [wfItems]
  | v :: vs => by
      simp only [wfItems, Bool.and_eq_true, List.mem_cons, wfItems_iff vs]
      constructor
      · rintro ⟨hv, hrest⟩ x hx
        rcases hx with rfl | hx
        · exact hv
        · exact hrest x hx
      · intro h
        exact ⟨h v (Or.inl rfl), fun x hx => h x (Or.inr hx)⟩

/-- The function wfEs distributes over append. -/
theorem wfEs_append (l1 l2 : List EntryNode) :
    wfEs (l1 ++ l2) = (wfEs l1 && wfEs l2) := by
  induction l1 with
  | nil => simp [wfEs]
  | cons e es ih => rw [List.cons_append, wfEs_cons, wfEs_cons, ih, Bool.and_assoc]

/-- The function wfItems distributes over append. -/
theorem wfItems_append (l1 l2 : List ValueNode) :
    wfItems (l1 ++ l2) = (wfItems l1 && wfItems l2) := by
  induction l1 with
  | nil => simp [wfItems]
  | cons v vs ih =>
    simp only [List.cons_append, wfItems, List.append_eq]
    rw [ih, Bool.and_assoc]

/-- The key produced by inner is never empty when the input key is not. -/
theorem inner_ne_nil (k : KeyNode) (n : Nat) (h : k.idents ≠ []) :
    (k.inner n).idents ≠ [] := by
  simp only [KeyNode.inner]
  split
  · exact h
  · simp only
    intro hnil
    have hlen := congrArg List.length hnil
    rw [List.length_drop] at hlen
    simp only [List.length_nil] at hlen
    have hpos : 0 < k.idents.length := List.length_pos.mpr h
    have h2 : Nat.min n (k.idents.length - 1) ≤ k.idents.length - 1 :=
      Nat.min_le_right _ _
    omega

/-- The key produced by outer is never empty when the input key is not. -/
theorem outer_ne_nil (k : KeyNode) (n : Nat) (h : k.idents ≠ []) :
    (k.outer n).idents ≠ [] := by
  unfold KeyNode.outer
  simp only
  intro hnil
  have hlen := congrArg List.length hnil
  rw [List.length_take] at hlen
  simp only [List.length_nil] at hlen
  have hpos : 0 < k.idents.length := List.length_pos.mpr h
  have h1 : 1 ≤ Nat.max 1 n := Nat.le_max_left 1 n
  omega

/-- The key produced by without_prefix is never empty when the input key is
not. -/
theorem withoutPfx_ne_nil (k other : KeyNode) (h : k.idents ≠ []) :
    (k.withoutPfx other).idents ≠ [] := by
  simp only [KeyNode.withoutPfx]
  split
  · exact inner_ne_nil k _ h
  · exact h

/-- The key produced by with_prefix is never empty when the input key is
not. -/
theorem withPfx_ne_nil (k other : KeyNode) (h : k.idents ≠ []) :
    (k.withPfx other).idents ≠ [] := by
  unfold KeyNode.withPfx
  simp only
  intro hnil
  rcases List.append_eq_nil.mp hnil with ⟨_, h2⟩
  exact h h2

/-- The index update does not change the idents. -/
theorem withIndex_idents (k : KeyNode) (n : Nat) :
    (k.withIndex n).idents = k.idents := rfl

mutual
/-- Well-formed values imply the C3 invariant. -/
theorem aotOkV_of_wfV : ∀ v, wfV v = true → aotOkV v = true
  | .bool _, _ => rfl
  | .strv _ _ _, _ => rfl
  | .integer _ _, _ => rfl
  | .float _, _ => rfl
  | .date _, _ => rfl
  | .array (.mk s tables items), h => by
      simp only [wfV, Bool.and_eq_true] at h
      obtain ⟨ht, hitems⟩ := h
      simp only [aotOkV, Bool.and_eq_true]
      refine ⟨?_, aotOkItems_of_wfItems items hitems⟩
      cases tables with
      | false => rfl
      | true =>
        simp only [Bool.not_true, Bool.false_or] at ht ⊢
        simp only [itemsAreTables, Bool.and_eq_true] at ht
        exact ht.2
  | .table (.mk s a p es), h => by
      simp only [wfV] at h
      simp only [aotOkV]
      exact aotOkEs_of_wfEs es h
/-- Companion of aotOkV_of_wfV for item lists. -/
theorem aotOkItems_of_wfItems : ∀ l, wfItems l = true → aotOkItems l = true
  | [], _ => rfl
  | v :: vs, h => by
      simp only [wfItems, Bool.and_eq_true] at h
      simp only [aotOkItems, Bool.and_eq_true]
      exact ⟨aotOkV_of_wfV v h.1, aotOkItems_of_wfItems vs h.2⟩
/-- Companion of aotOkV_of_wfV for entry lists. -/
theorem aotOkEs_of_wfEs : ∀ l, wfEs l = true → aotOkEs l = true
  | [], _ => rfl
  | (.mk s k v) :: es, h => by
      simp only [wfEs, Bool.and_eq_true] at h
      simp only [aotOkEs, Bool.and_eq_true]
      exact ⟨aotOkV_of_wfV v h.1.2, aotOkEs_of_wfEs es h.2⟩
end

/-- A cast key always has at least one ident. -/
theorem castKeyNode_ne_nil (s : Syn) (k : KeyNode) (h : castKeyNode s = some k) :
    k.idents ≠ [] := by
  simp only [castKeyNode] at h
  split at h
  · cases h
  · split at h
    · cases h
    · split at h
      · cases h
      · rename_i hlen
        cases h
        intro hnil
        exact hlen (by simpa using congrArg List.length hnil)

/-- Cast BOOL tokens are well-formed values. -/
theorem castBoolNode_wf (s : Syn) (v : ValueNode) (h : castBoolNode s = some v) :
    wfV v = true := by
  unfold castBoolNode at h
  split at h
  · cases h; rfl
  · cases h

/-- Cast FLOAT tokens are well-formed values. -/
theorem castFloatNode_wf (s : Syn) (v : ValueNode) (h : castFloatNode s = some v) :
    wfV v = true := by
  unfold castFloatNode at h
  split at h
  · cases h; rfl
  · cases h

/-- Cast DATE tokens are well-formed values. -/
theorem castDateNode_wf (s : Syn) (v : ValueNode) (h : castDateNode s = some v) :
    wfV v = true := by
  unfold castDateNode at h
  split at h
  · cases h; rfl
  · cases h

/-- Cast integer tokens are well-formed values. -/
theorem castIntegerNode_wf (s : Syn) (v : ValueNode) (h : castIntegerNode s = some v) :
    wfV v = true := by
  unfold castIntegerNode at h
  split at h <;> first
    | (cases h; rfl)
    | cases h

/-- Cast string tokens are well-formed values. -/
theorem castStringNode_wf (s : Syn) (v : ValueNode) (h : castStringNode s = some v) :
    wfV v = true := by
  unfold castStringNode at h
  split at h
  · rw [Option.map_eq_some'] at h
    obtain ⟨c, _, rfl⟩ := h
    rfl
  · rw [Option.map_eq_some'] at h
    obtain ⟨c, _, rfl⟩ := h
    rfl
  · cases h; rfl
  · cases h; rfl
  · cases h

/-- Every successful cast produces well-formed values: no Empty, no
tables-flagged arrays, non-empty keys everywhere. -/
theorem cast_wf : ∀ f : Nat,
    (∀ s v, dispatchValueF f s = some v → wfV v = true) ∧
    (∀ s v, castValueF f s = some v → wfV v = true) ∧
    (∀ s t, castTableF f s = some t → wfEs t.entries = true) ∧
    (∀ s a, castArrayF f s = some a → a.tables = false ∧ wfItems a.items = true) ∧
    (∀ s e, castEntryF f s = some e → wfE e = true) := by
  intro f
  induction f with
  | zero =>
    refine ⟨fun s v h => ?_, fun s v h => ?_, fun s t h => ?_, fun s a h => ?_,
      fun s e h => ?_⟩
    · rw [show dispatchValueF 0 s = none from rfl] at h; cases h
    · rw [show castValueF 0 s = none from rfl] at h; cases h
    · rw [show castTableF 0 s = none from rfl] at h; cases h
    · rw [show castArrayF 0 s = none from rfl] at h; cases h
    · rw [show castEntryF 0 s = none from rfl] at h; cases h
  | succ f ih =>
    obtain ⟨ihD, ihV, ihT, ihA, ihE⟩ := ih
    refine ⟨fun s v h => ?_, fun s v h => ?_, fun s t h => ?_, fun s a h => ?_,
      fun s e h => ?_⟩
    · unfold dispatchValueF at h
      split at h
      · rw [Option.map_eq_some'] at h
        obtain ⟨t, ht, rfl⟩ := h
        cases t with
        | mk st ar ps es => exact ihT s _ ht
      · rw [Option.map_eq_some'] at h
        obtain ⟨a, ha, rfl⟩ := h
        obtain ⟨htab, hitems⟩ := ihA s a ha
        cases a with
        | mk st tb items =>
          simp only [ArrayNode.tables] at htab
          subst htab
          simp only [wfV, Bool.not_false, Bool.true_or, Bool.true_and]
          exact hitems
      · exact castBoolNode_wf s v h
      · exact castStringNode_wf s v h
      · exact castStringNode_wf s v h
      · exact castStringNode_wf s v h
      · exact castStringNode_wf s v h
      · exact castIntegerNode_wf s v h
      · exact castIntegerNode_wf s v h
      · exact castIntegerNode_wf s v h
      · exact castIntegerNode_wf s v h
      · exact castFloatNode_wf s v h
      · exact castDateNode_wf s v h
      · cases h
    · unfold castValueF at h
      split at h
      · cases h
      · split at h
        · cases h
        · exact ihD _ v h
    · unfold castTableF at h
      split at h
      · cases h
      · split at h
        · split at h
          · cases h
          · cases h; rfl
        · split at h
          · cases h
          · cases h; rfl
        · cases h
          rw [wfEs_iff]
          intro e he
          simp only [TableNode.entries] at he
          obtain ⟨c, _, hc⟩ := List.mem_filterMap.mp he
          exact ihE c e hc
        · cases h
    · unfold castArrayF at h
      split at h
      · cases h
      · split at h
        · cases h
          refine ⟨rfl, ?_⟩
          rw [wfItems_iff]
          intro v hv
          simp only [ArrayNode.items] at hv
          obtain ⟨c, _, hc⟩ := List.mem_filterMap.mp hv
          exact ihV c v hc
        · cases h
          exact ⟨rfl, rfl⟩
        · cases h
    · unfold castEntryF at h
      split at h
      · cases h
      · split at h
        · cases h
        · split at h
          · cases h
          · rename_i k hk
            split at h
            · cases h
            · rename_i vn hvn
              split at h
              · cases h
              · rename_i v2 hv2
                cases h
                simp only [wfE, EntryNode.key, EntryNode.value, Bool.and_eq_true]
                refine ⟨?_, ihV vn v2 hv2⟩
                have hne := castKeyNode_ne_nil _ _
                  (Option.bind_eq_some.mp hk).choose_spec.2
                cases hkid : k.idents with
                | nil => exact absurd hkid hne
                | cons x xs => rfl

end InvariantLemmas

section WalkInvariant

/-- Invariant of the walk's entry map: every map key is non-empty and every
stored value is well-formed. -/
def wfMap (m : List (KeyNode × EntryNode)) : Bool :=
  m.all fun p => !p.1.idents.isEmpty && wfV p.2.value

/-- Membership formulation of wfMap. -/
theorem wfMap_iff (m : List (KeyNode × EntryNode)) :
    wfMap m = true ↔ ∀ p ∈ m, p.1.idents ≠ [] ∧ wfV p.2.value = true := by
  unfold wfMap
  rw [List.all_eq_true]
  constructor
  · intro h p hp
    have := h p hp
    simp only [Bool.and_eq_true] at this
    refine ⟨?_, this.2⟩
    intro hnil
    rw [hnil] at this
    exact absurd this.1 (by decide)
  · intro h p hp
    obtain ⟨h1, h2⟩ := h p hp
    simp only [Bool.and_eq_true]
    refine ⟨?_, h2⟩
    cases hx : p.1.idents with
    | nil => exact absurd hx h1
    | cons x xs => rfl

/-- IndexMap insertion preserves the walk invariant. -/
theorem imInsert_wf (m : List (KeyNode × EntryNode)) (k : KeyNode) (e : EntryNode)
    (hm : wfMap m = true) (hk : k.idents ≠ []) (he : wfV e.value = true) :
    wfMap (imInsert m k e) = true := by
  rw [wfMap_iff] at hm ⊢
  induction m with
  | nil =>
    intro p hp
    rw [imInsert] at hp
    rcases List.mem_singleton.mp hp with rfl
    exact ⟨hk, he⟩
  | cons q rest ih =>
    intro p hp
    rw [imInsert] at hp
    split at hp
    · rcases List.mem_cons.mp hp with rfl | hp2
      · exact ⟨(hm q (List.mem_cons_self q rest)).1, he⟩
      · exact hm p (List.mem_cons.mpr (Or.inr hp2))
    · rcases List.mem_cons.mp hp with rfl | hp2
      · exact hm p (List.mem_cons_self p rest)
      · exact ih (fun r hr => hm r (List.mem_cons.mpr (Or.inr hr))) p hp2

/-- One walk step preserves the walk invariant. -/
theorem walkStep_wf (f : Nat) (st : WalkState) (child : Syn)
    (h : wfMap st.entries = true) : wfMap (walkStep f st child).entries = true := by
  unfold walkStep
  cases hck : child.kind <;> try exact h
  case TABLE_HEADER | TABLE_ARRAY_HEADER =>
    cases hct : castTableF f child with
    | none => exact h
    | some t =>
      simp only
      cases hkk : t.stx.firstChild >>= castKeyNode with
      | none => exact h
      | some key =>
        have hkeyne : key.idents ≠ [] :=
          castKeyNode_ne_nil _ _ (Option.bind_eq_some.mp hkk).choose_spec.2
        have hwft : wfV (.table t) = true := by
          cases t with
          | mk ts ta tp te => exact (cast_wf f).2.2.1 child _ hct
        simp only
        cases hfind : st.entries.reverse.find? (fun p => p.1.eqKeys key) with
        | none =>
          simp only
          exact imInsert_wf _ _ _ h hkeyne hwft
        | some q =>
          obtain ⟨ek, ex⟩ := q
          simp only
          split
          · exact h
          · split
            · exact h
            · split
              · exact h
              · exact imInsert_wf _ _ _ h (by simpa [KeyNode.withIndex] using hkeyne) hwft
  case ENTRY =>
    cases hce : castEntryF f child with
    | none => exact h
    | some entry =>
      have hwfe := (cast_wf f).2.2.2.2 child entry hce
      simp only [wfE, Bool.and_eq_true] at hwfe
      have hkne : entry.key.idents ≠ [] := by
        intro hnil
        rw [hnil] at hwfe
        exact absurd hwfe.1 (by decide)
      simp only
      cases hpfx : st.pfx with
      | none =>
        simp only
        cases hget : imGet st.entries entry.key with
        | some ex => exact h
        | none =>
          simp only
          exact imInsert_wf _ _ _ h hkne hwfe.2
      | some p =>
        simp only
        cases hget : imGet st.entries (entry.key.withPfx p) with
        | some ex => exact h
        | none =>
          simp only
          exact imInsert_wf _ _ _ h (withPfx_ne_nil _ _ hkne) hwfe.2

/-- The bookkeeping step leaves the entry map unchanged. -/
theorem walkFinishTables_entries (st : WalkState) :
    (walkFinishTables st).entries = st.entries := by
  unfold walkFinishTables
  split
  · split
    · rfl
    · rfl
  · rfl

/-- The entries of the walk are those of the fold over the children. -/
theorem walkRoot_entries (f : Nat) (s : Syn) :
    (walkRoot f s).entries
      = (List.foldl (walkStep f) ⟨[], none, [], []⟩ s.childrenWithTokens).entries := by
  exact walkFinishTables_entries _

/-- The whole walk yields a well-formed entry map. -/
theorem walkRoot_wf (f : Nat) (s : Syn) : wfMap (walkRoot f s).entries = true := by
  have hfold : ∀ (cs : List Syn) (st : WalkState), wfMap st.entries = true →
      wfMap ((cs.foldl (walkStep f) st).entries) = true := by
    intro cs
    induction cs with
    | nil => intro st h; exact h
    | cons c rest ih =>
      intro st h
      rw [List.foldl_cons]
      exact ih _ (walkStep_wf f st c h)
  rw [walkRoot_entries]
  exact hfold _ _ (by rfl)

/-- The flattened map is well-formed as an entry list. -/
theorem entriesFromMap_wf (m : List (KeyNode × EntryNode))
    (h : wfMap m = true) : wfEs (entriesFromMap m) = true := by
  rw [wfEs_iff]
  intro e he
  obtain ⟨p, hp, rfl⟩ := List.mem_map.mp he
  obtain ⟨h1, h2⟩ := (wfMap_iff m).mp h p hp
  cases hx : p.1.idents with
  | nil => exact absurd hx h1
  | cons x xs =>
    simp only [wfE, EntryNode.withKey, EntryNode.key, EntryNode.value, Bool.and_eq_true]
    constructor
    · rw [hx]; rfl
    · exact h2

end WalkInvariant

section MergeInvariant

/-- Characterization of wfE. -/
theorem wfE_iff (e : EntryNode) :
    wfE e = true ↔ e.key.idents ≠ [] ∧ wfV e.value = true := by
  unfold wfE
  rw [Bool.and_eq_true]
  constructor
  · rintro ⟨h1, h2⟩
    refine ⟨?_, h2⟩
    intro hnil
    rw [hnil] at h1
    exact absurd h1 (by decide)
  · rintro ⟨h1, h2⟩
    refine ⟨?_, h2⟩
    cases hx : e.key.idents with
    | nil => exact absurd hx h1
    | cons x xs => rfl

/-- Key of an explicit entry constructor. -/
theorem mkEntry_key (s : Syn) (k : KeyNode) (v : ValueNode) :
    (EntryNode.mk s k v).key = k := rfl

/-- Value of an explicit entry constructor. -/
theorem mkEntry_value (s : Syn) (k : KeyNode) (v : ValueNode) :
    (EntryNode.mk s k v).value = v := rfl

/-- Keys of withKey and withValue. -/
theorem withKey_key (e : EntryNode) (k : KeyNode) : (e.withKey k).key = k := by
  cases e; rfl

/-- Value of withKey. -/
theorem withKey_value (e : EntryNode) (k : KeyNode) : (e.withKey k).value = e.value := by
  cases e; rfl

/-- Key of withValue. -/
theorem withValue_key (e : EntryNode) (v : ValueNode) : (e.withValue v).key = e.key := by
  cases e; rfl

/-- Value of withValue. -/
theorem withValue_value (e : EntryNode) (v : ValueNode) :
    (e.withValue v).value = v := by
  cases e; rfl

/-- Well-formed table values have well-formed entries. -/
theorem wfV_table_entries (t : TableNode) (h : wfV (.table t) = true) :
    wfEs t.entries = true := by
  cases t
  exact h

/-- Characterization of well-formed array values. -/
theorem wfV_array_parts (a : ArrayNode) :
    wfV (.array a) = true
      ↔ ((!a.tables || itemsAreTables a.items) = true ∧ wfItems a.items = true) := by
  cases a
  simp only [wfV, Bool.and_eq_true]
  exact Iff.rfl

/-- The array transformation of merge preserves well-formedness. -/
theorem arrayTransform_wf (e : EntryNode) (h : wfE e = true) :
    wfE (arrayTransform e) = true := by
  unfold arrayTransform
  split
  · rename_i t heqv
    split
    · rename_i harr
      rw [wfE_iff] at h ⊢
      obtain ⟨hk, hv⟩ := h
      rw [withValue_key, withValue_value]
      refine ⟨hk, ?_⟩
      rw [heqv] at hv
      have hes : wfEs t.entries = true := wfV_table_entries t hv
      cases t with
      | mk ts ta tp te =>
        simp only [TableNode.stx, TableNode.pseudo, TableNode.entries] at hes ⊢
        simp only [wfV, itemsAreTables, wfItems, isPlainTable, TableNode.array,
          List.isEmpty_cons, List.all_cons, List.all_nil, Bool.not_false,
          Bool.and_true, Bool.true_and, Bool.not_true, Bool.false_or]
        exact hes
    · exact h
  · exact h

/-- Appending a plain table with well-formed entries to the items of an
array of tables keeps its item invariants. -/
theorem pushItem_wf (items : List ValueNode) (t2 : TableNode)
    (h1 : itemsAreTables items = true) (h2 : wfItems items = true)
    (ht : t2.array = false) (hes : wfEs t2.entries = true) :
    itemsAreTables (items ++ [.table t2]) = true ∧
    wfItems (items ++ [.table t2]) = true := by
  cases t2 with
  | mk s a p es =>
    simp only [TableNode.array] at ht
    subst ht
    simp only [TableNode.entries] at hes
    constructor
    · simp only [itemsAreTables, Bool.and_eq_true] at h1 ⊢
      constructor
      · simp
      · rw [List.all_append]
        simp only [List.all_cons, List.all_nil, Bool.and_true, Bool.and_eq_true]
        exact ⟨h1.2, by simp [isPlainTable, TableNode.array]⟩
    · rw [wfItems_append, Bool.and_eq_true]
      refine ⟨h2, ?_⟩
      simp only [wfItems, Bool.and_eq_true]
      exact ⟨hes, trivial⟩

/-- Replacing the last item of an array of tables with the same table
carrying new well-formed entries keeps its item invariants. -/
theorem intoLastItems_wf (items : List ValueNode) (arrT : TableNode)
    (es : List EntryNode)
    (h1 : itemsAreTables items = true) (h2 : wfItems items = true)
    (hlast : items.getLast? = some (.table arrT)) (hes : wfEs es = true) :
    arrT.array = false ∧
    itemsAreTables (items.dropLast ++
      [.table (.mk arrT.stx arrT.array arrT.pseudo es)]) = true ∧
    wfItems (items.dropLast ++
      [.table (.mk arrT.stx arrT.array arrT.pseudo es)]) = true := by
  have hmem : ValueNode.table arrT ∈ items := List.mem_of_mem_getLast? hlast
  have hplain := (List.all_eq_true.mp
    (Bool.and_eq_true _ _ |>.mp h1).2) _ hmem
  have harr : arrT.array = false := by
    cases arrT with
    | mk s a p e => simpa [isPlainTable, TableNode.array, Bool.not_eq_true'] using hplain
  refine ⟨harr, ?_, ?_⟩
  · simp only [itemsAreTables, Bool.and_eq_true]
    constructor
    · simp
    · rw [List.all_append]
      simp only [List.all_cons, List.all_nil, Bool.and_true, Bool.and_eq_true]
      constructor
      · rw [List.all_eq_true]
        intro x hx
        exact (List.all_eq_true.mp (Bool.and_eq_true _ _ |>.mp h1).2) x
          (List.dropLast_subset _ hx)
      · cases arrT with
        | mk s a p e =>
          simp only [TableNode.array] at harr
          subst harr
          simp [isPlainTable, TableNode.stx, TableNode.array, TableNode.pseudo]
  · rw [wfItems_append, Bool.and_eq_true]
    constructor
    · rw [wfItems_iff]
      intro x hx
      exact (wfItems_iff items).mp h2 x (List.dropLast_subset _ hx)
    · simp only [wfItems, Bool.and_eq_true]
      refine ⟨?_, trivial⟩
      cases arrT with
      | mk s a p e => exact hes

/-- A rewritten-key entry stays well-formed when stripped keys stay
non-empty. -/
theorem withKeyStrip_wf (e : EntryNode) (k2 : KeyNode)
    (hk : e.key.idents ≠ []) (hv : wfV e.value = true) :
    wfE (e.withKey (e.key.withoutPfx k2)) = true := by
  rw [wfE_iff, withKey_key, withKey_value]
  exact ⟨withoutPfx_ne_nil _ _ hk, hv⟩

/-- Merge preserves well-formedness: merge_entry keeps the old entry
well-formed, the inner loop keeps the accumulated list well-formed, and
merge keeps everything well-formed. -/
theorem merge_wf : ∀ f : Nat,
    (∀ old new errs out, mergeEntryF f old new errs = some out →
        wfE old = true → wfE new = true → wfE out.1 = true) ∧
    (∀ acc e errs out, tryMergeF f acc e errs = some out →
        wfEs acc = true → wfE e = true → wfEs out.1 = true) ∧
    (∀ inp acc errs out, mergeF f inp acc errs = some out →
        wfEs inp = true → wfEs acc = true → wfEs out.1 = true) := by
  intro f
  induction f with
  | zero =>
    refine ⟨?_, ?_, ?_⟩ <;> intro a b c o h h1 h2
    · rw [show mergeEntryF 0 a b c = none from rfl] at h; cases h
    · rw [show tryMergeF 0 a b c = none from rfl] at h; cases h
    · rw [show mergeF 0 a b c = none from rfl] at h; cases h
  | succ f ih =>
    obtain ⟨ihMe, ihTry, ihGo⟩ := ih
    refine ⟨?_, ?_, ?_⟩
    · intro old new errs out h hwOld hwNew
      obtain ⟨hkOld, hvOld⟩ := (wfE_iff old).mp hwOld
      obtain ⟨hkNew, hvNew⟩ := (wfE_iff new).mp hwNew
      simp only [mergeEntryF] at h
      split at h
      · -- old.key is_part_of new.key
        split at h
        · -- old.value is a table t
          rename_i t heqv
          split at h
          · -- inline table: error, old unchanged
            cases h
            exact hwOld
          · -- merge into the table and recurse
            split at h
            · cases h
            · rename_i es errors2 heq2
              cases h
              rw [wfE_iff, withValue_key, withValue_value]
              refine ⟨hkOld, ?_⟩
              have hIns : wfE (new.withKey (new.key.withoutPfx old.key)) = true :=
                withKeyStrip_wf new old.key hkNew hvNew
              have hEntries : wfEs t.entries = true := by
                rw [heqv] at hvOld
                exact wfV_table_entries t hvOld
              have hInp : wfEs (t.entries ++ [new.withKey (new.key.withoutPfx old.key)])
                  = true := by
                rw [wfEs_append, Bool.and_eq_true]
                refine ⟨hEntries, ?_⟩
                rw [wfEs_cons]
                simp [hIns, wfEs]
              have hres := ihGo _ _ _ _ heq2 hInp rfl
              cases t with
              | mk ts ta tp te => exact hres
        · -- old.value is an array
          rename_i oldArr heqv
          obtain ⟨oaStx, oaTables, oaItems⟩ := oldArr
          simp only [ArrayNode.stx, ArrayNode.tables, ArrayNode.items] at h
          split at h
          · -- tables flag false: error, old unchanged
            cases h
            exact hwOld
          · rename_i htables
            have htab : oaTables = true := by
              cases oaTables
              · exact absurd rfl htables
              · rfl
            subst htab
            have hitems : itemsAreTables oaItems = true ∧ wfItems oaItems = true := by
              rw [heqv] at hvOld
              have hp := (wfV_array_parts _).mp hvOld
              simp only [ArrayNode.tables, ArrayNode.items, Bool.not_true,
                Bool.false_or] at hp
              exact hp
            split at h
            · -- new.value is a table newT
              rename_i newT heqvNew
              split at h
              · -- push a new element onto the array
                cases h
                rw [wfE_iff, withValue_key, withValue_value]
                refine ⟨hkOld, ?_⟩
                have hNewEs : wfEs newT.entries = true := by
                  rw [heqvNew] at hvNew
                  exact wfV_table_entries newT hvNew
                obtain ⟨ntStx, ntArr, ntPseudo, ntEs⟩ := newT
                simp only [TableNode.stx, TableNode.pseudo, TableNode.entries] at hNewEs ⊢
                have hpush := pushItem_wf oaItems (.mk ntStx false ntPseudo ntEs)
                  hitems.1 hitems.2 rfl hNewEs
                simp only [wfV, Bool.not_true, Bool.false_or, Bool.and_eq_true]
                exact ⟨hpush.1, hpush.2⟩
              · -- merge into the last element of the array
                split at h
                · rename_i arrT hlast
                  split at h
                  · cases h
                  · rename_i es errors2 heq2
                    cases h
                    rw [wfE_iff, withValue_key, withValue_value]
                    refine ⟨hkOld, ?_⟩
                    have hIns : wfE (new.withKey (new.key.withoutPfx old.key)) = true :=
                      withKeyStrip_wf new old.key hkNew hvNew
                    have harrEs : wfEs arrT.entries = true := by
                      have hmem : ValueNode.table arrT ∈ oaItems :=
                        List.mem_of_mem_getLast? hlast
                      exact wfV_table_entries arrT ((wfItems_iff oaItems).mp hitems.2 _ hmem)
                    have hInp : wfEs (arrT.entries ++
                        [new.withKey (new.key.withoutPfx old.key)]) = true := by
                      rw [wfEs_append, Bool.and_eq_true]
                      refine ⟨harrEs, ?_⟩
                      rw [wfEs_cons]
                      simp [hIns, wfEs]
                    have hres := ihGo _ _ _ _ heq2 hInp rfl
                    obtain ⟨hA, hB, hC⟩ := intoLastItems_wf oaItems arrT _
                      hitems.1 hitems.2 hlast hres
                    simp only [wfV, Bool.not_true, Bool.false_or, Bool.and_eq_true]
                    exact ⟨hB, hC⟩
                · cases h
                · cases h
            · -- new.value is Empty: panic, modelled as none
              cases h
            · -- new.value is anything else: merge into the last element
              split at h
              · rename_i arrT hlast
                split at h
                · cases h
                · rename_i es errors2 heq2
                  cases h
                  rw [wfE_iff, withValue_key, withValue_value]
                  refine ⟨hkOld, ?_⟩
                  have hIns : wfE (new.withKey (new.key.withoutPfx old.key)) = true :=
                    withKeyStrip_wf new old.key hkNew hvNew
                  have harrEs : wfEs arrT.entries = true := by
                    have hmem : ValueNode.table arrT ∈ oaItems :=
                      List.mem_of_mem_getLast? hlast
                    exact wfV_table_entries arrT ((wfItems_iff oaItems).mp hitems.2 _ hmem)
                  have hInp : wfEs (arrT.entries ++
                      [new.withKey (new.key.withoutPfx old.key)]) = true := by
                    rw [wfEs_append, Bool.and_eq_true]
                    refine ⟨harrEs, ?_⟩
                    rw [wfEs_cons]
                    simp [hIns, wfEs]
                  have hres := ihGo _ _ _ _ heq2 hInp rfl
                  obtain ⟨hA, hB, hC⟩ := intoLastItems_wf oaItems arrT _
                    hitems.1 hitems.2 hlast hres
                  simp only [wfV, Bool.not_true, Bool.false_or, Bool.and_eq_true]
                  exact ⟨hB, hC⟩
              · cases h
              · cases h
        · -- old.value is Empty: panic, modelled as none
          cases h
        · -- old.value is a scalar: error, old unchanged
          cases h
          exact hwOld
      · split at h
        · -- the swap branch
          split at h
          · cases h
          · rename_i newOld errors2 heq2
            cases h
            exact ihMe _ _ _ _ heq2 hwNew hwOld
          · cases h
            exact hwOld
          · cases h
            exact hwOld
        · -- the pseudo-table branch, or no relation at all
          split at h
          · cases h
            rw [wfE_iff, mkEntry_key, mkEntry_value]
            constructor
            · exact outer_ne_nil _ _ hkOld
            · have ha : wfE (old.withKey
                  (old.key.withoutPfx (old.key.outer
                    (old.key.commonPfxCount new.key)))) = true :=
                withKeyStrip_wf old _ hkOld hvOld
              have hb : wfE (new.withKey
                  (new.key.withoutPfx (old.key.outer
                    (old.key.commonPfxCount new.key)))) = true :=
                withKeyStrip_wf new _ hkNew hvNew
              simp only [wfV]
              rw [wfEs_cons, wfEs_cons]
              simp [ha, hb, wfEs]
          · cases h
            exact hwOld
    · intro acc e errs out h hacc he
      cases acc with
      | nil =>
        rw [show tryMergeF (f+1) [] e errs = some ([], errs, true) from rfl] at h
        cases h
        rfl
      | cons existing rest =>
        rw [wfEs_cons, Bool.and_eq_true] at hacc
        simp only [tryMergeF] at h
        split at h
        · cases h
        · rename_i existing2 errors2 heq2
          cases h
          rw [wfEs_cons, Bool.and_eq_true]
          exact ⟨ihMe _ _ _ _ heq2 hacc.1 he, hacc.2⟩
        · rename_i existing2 errors2 heq2
          split at h
          · cases h
          · rename_i rest2 errors3 ins heq3
            cases h
            rw [wfEs_cons, Bool.and_eq_true]
            exact ⟨ihMe _ _ _ _ heq2 hacc.1 he, ihTry _ _ _ _ heq3 hacc.2 he⟩
        · rename_i existing2 errors2 e2 heq2
          cases h
          rw [wfEs_cons, Bool.and_eq_true]
          exact ⟨ihMe _ _ _ _ heq2 hacc.1 he, hacc.2⟩
    · intro inp acc errs out h hinp hacc
      cases inp with
      | nil =>
        rw [show mergeF (f+1) [] acc errs = some (acc, errs) from rfl] at h
        cases h
        exact hacc
      | cons entry rest =>
        rw [wfEs_cons, Bool.and_eq_true] at hinp
        have hentry : wfE (entry.withKey (entry.key.withIndex 0)) = true := by
          rw [wfE_iff, withKey_key, withKey_value, withIndex_idents]
          exact ⟨((wfE_iff entry).mp hinp.1).1, ((wfE_iff entry).mp hinp.1).2⟩
        simp only [mergeF] at h
        split at h
        · cases h
        · rename_i acc2 errors2 shouldInsert heq2
          have hacc2 := ihTry _ _ _ _ heq2 hacc hentry
          split at h
          · refine ihGo _ _ _ _ h hinp.2 ?_
            rw [wfEs_append, Bool.and_eq_true]
            refine ⟨hacc2, ?_⟩
            rw [wfEs_cons]
            simp [arrayTransform_wf _ hentry, wfEs]
          · exact ihGo _ _ _ _ h hinp.2 hacc2

end MergeInvariant

section NormalizeInvariant

/-- Key of a normalization step. -/
theorem normalizeStep_key (e : EntryNode) : (normalizeStep e).key = e.key.pfxKey := rfl

/-- The last ident of a non-empty key has exactly one ident. -/
theorem lastKey_len (k : KeyNode) (h : 1 ≤ k.idents.length) :
    k.lastKey.idents.length = 1 := by
  have hmin : Nat.min k.idents.length (k.idents.length - 1)
      = k.idents.length - 1 := by
    rw [show Nat.min k.idents.length (k.idents.length - 1)
      = min k.idents.length (k.idents.length - 1) from rfl]
    omega
  simp only [KeyNode.lastKey, KeyNode.inner, KeyNode.keyCount, hmin]
  split
  · rename_i hz
    omega
  · rename_i hz
    simp only [List.length_drop]
    omega

/-- The last ident key is never empty for a non-empty key. -/
theorem lastKey_ne_nil (k : KeyNode) (h : k.idents ≠ []) :
    k.lastKey.idents ≠ [] := inner_ne_nil k _ h

/-- Dropping the last ident shortens a multi-ident key by one. -/
theorem pfxKey_len (k : KeyNode) (h : 2 ≤ k.idents.length) :
    k.pfxKey.idents.length = k.idents.length - 1 := by
  have hmax : Nat.max 1 (k.idents.length - 1) = k.idents.length - 1 := by
    rw [show Nat.max 1 (k.idents.length - 1)
      = max 1 (k.idents.length - 1) from rfl]
    omega
  simp only [KeyNode.pfxKey, KeyNode.outer, KeyNode.keyCount, List.length_take,
    hmax]
  omega

/-- One normalization step keeps entries well-formed. -/
theorem normalizeStep_wf (e : EntryNode) (h : wfE e = true) :
    wfE (normalizeStep e) = true := by
  obtain ⟨hk, hv⟩ := (wfE_iff e).mp h
  rw [wfE_iff]
  unfold normalizeStep
  simp only [mkEntry_key, mkEntry_value]
  refine ⟨outer_ne_nil _ _ hk, ?_⟩
  simp only [wfV, wfEs, mkEntry_key, mkEntry_value, Bool.and_eq_true]
  refine ⟨⟨?_, hv⟩, trivial⟩
  have := lastKey_ne_nil _ hk
  cases hx : (e.key.lastKey).idents with
  | nil => exact absurd hx this
  | cons x xs => rfl

/-- The loop of EntryNode::normalize ends with a one-ident key and a
normalized value, provided the incoming value is normalized and the fuel
covers the key length. -/
theorem normGo_norm1 : ∀ (n : Nat) (e : EntryNode), e.key.idents ≠ [] →
    norm1V e.value = true → e.key.keyCount ≤ n + 1 →
    (normalizeEntry.go n e).key.keyCount = 1 ∧
    norm1V (normalizeEntry.go n e).value = true := by
  intro n
  induction n with
  | zero =>
    intro e hk hv hlen
    rw [show normalizeEntry.go 0 e = e from rfl]
    have : 1 ≤ e.key.idents.length := by
      cases hx : e.key.idents with
      | nil => exact absurd hx hk
      | cons x xs => simp [hx]
    unfold KeyNode.keyCount at hlen ⊢
    exact ⟨by omega, hv⟩
  | succ n ih =>
    intro e hk hv hlen
    rw [show normalizeEntry.go (n+1) e
      = (if e.key.keyCount > 1 then normalizeEntry.go n (normalizeStep e) else e)
      from rfl]
    split
    · rename_i hgt
      refine ih (normalizeStep e) ?_ ?_ ?_
      · rw [normalizeStep_key]
        exact outer_ne_nil _ _ hk
      · unfold normalizeStep
        simp only [mkEntry_value]
        simp only [norm1V, norm1Tab, mkEntry_key, mkEntry_value, Bool.and_eq_true]
        refine ⟨⟨?_, hv⟩, trivial⟩
        rw [Nat.beq_eq_true_eq]
        exact lastKey_len e.key (by unfold KeyNode.keyCount at hgt; omega)
      · rw [normalizeStep_key]
        unfold KeyNode.keyCount at hgt hlen ⊢
        rw [pfxKey_len e.key (by omega)]
        omega
    · rename_i hle
      have : 1 ≤ e.key.idents.length := by
        cases hx : e.key.idents with
        | nil => exact absurd hx hk
        | cons x xs => simp [hx]
      unfold KeyNode.keyCount at hle ⊢
      exact ⟨by omega, hv⟩

/-- The loop of EntryNode::normalize keeps entries well-formed. -/
theorem normGo_wf : ∀ (n : Nat) (e : EntryNode), wfE e = true →
    wfE (normalizeEntry.go n e) = true := by
  intro n
  induction n with
  | zero => intro e h; exact h
  | succ n ih =>
    intro e h
    rw [show normalizeEntry.go (n+1) e
      = (if e.key.keyCount > 1 then normalizeEntry.go n (normalizeStep e) else e)
      from rfl]
    split
    · exact ih _ (normalizeStep_wf e h)
    · exact h

/-- EntryNode::normalize keeps entries well-formed. -/
theorem normalizeEntry_wf (e : EntryNode) (h : wfE e = true) :
    wfE (normalizeEntry e) = true := normGo_wf _ e h

/-- The recursive normalization is a map over items. -/
theorem normalizeItems_eq_map (l : List ValueNode) :
    normalizeItems l = l.map normalizeValue := by
  induction l with
  | nil => rfl
  | cons v vs ih => rw [show normalizeItems (v :: vs)
      = normalizeValue v :: normalizeItems vs from rfl, ih, List.map_cons]

/-- The recursive normalization is a map over entries. -/
theorem normalizeEntries_eq_map (l : List EntryNode) :
    normalizeEntries l = l.map normalizeOne := by
  induction l with
  | nil => rfl
  | cons e es ih => rw [show normalizeEntries (e :: es)
      = normalizeOne e :: normalizeEntries es from rfl, ih, List.map_cons]

/-- Normalization does not change whether a value is a plain table. -/
theorem isPlainTable_normalizeValue (v : ValueNode) :
    isPlainTable (normalizeValue v) = isPlainTable v := by
  cases v with
  | array a => cases a; rfl
  | table t => cases t; rfl
  | bool t => rfl
  | strv t sk c => rfl
  | integer t r => rfl
  | float t => rfl
  | date t => rfl
  | empty => rfl

mutual
/-- Normalization preserves well-formed values. -/
theorem normalizeValue_wf : ∀ v, wfV v = true → wfV (normalizeValue v) = true
  | .bool _, h => h
  | .strv _ _ _, h => h
  | .integer _ _, h => h
  | .float _, h => h
  | .date _, h => h
  | .empty, h => h
  | .array (.mk s tb items), h => by
      simp only [wfV, Bool.and_eq_true] at h
      simp only [normalizeValue, wfV, Bool.and_eq_true]
      obtain ⟨h1, h2⟩ := h
      refine ⟨?_, normalizeItems_wf items h2⟩
      cases tb with
      | false => rfl
      | true =>
        simp only [Bool.not_true, Bool.false_or, itemsAreTables,
          Bool.and_eq_true] at h1 ⊢
        rw [normalizeItems_eq_map]
        constructor
        · cases items with
          | nil => exact absurd h1.1 (by decide)
          | cons x xs => rfl
        · rw [List.all_map, List.all_eq_true]
          intro x hx
          simp only [Function.comp]
          rw [isPlainTable_normalizeValue]
          exact List.all_eq_true.mp h1.2 x hx
  | .table (.mk s a p es), h => by
      simp only [wfV] at h
      simp only [normalizeValue, wfV]
      exact normalizeEntriesList_wf es h
/-- Companion of normalizeValue_wf for item lists. -/
theorem normalizeItems_wf : ∀ l, wfItems l = true → wfItems (normalizeItems l) = true
  | [], h => h
  | v :: vs, h => by
      simp only [wfItems, Bool.and_eq_true] at h
      simp only [normalizeItems, wfItems, Bool.and_eq_true]
      exact ⟨normalizeValue_wf v h.1, normalizeItems_wf vs h.2⟩
/-- Companion of normalizeValue_wf for entry lists. -/
theorem normalizeEntriesList_wf : ∀ l, wfEs l = true → wfEs (normalizeEntries l) = true
  | [], h => h
  | e :: es, h => by
      rw [wfEs_cons, Bool.and_eq_true] at h
      rw [show normalizeEntries (e :: es) = normalizeOne e :: normalizeEntries es
        from rfl, wfEs_cons, Bool.and_eq_true]
      exact ⟨normalizeOne_wf e h.1, normalizeEntriesList_wf es h.2⟩
/-- Companion of normalizeValue_wf for one entry. -/
theorem normalizeOne_wf : ∀ e, wfE e = true → wfE (normalizeOne e) = true
  | .mk s k v, h => by
      rw [show normalizeOne (.mk s k v)
        = normalizeEntry (EntryNode.mk s k (normalizeValue v)) from rfl]
      apply normalizeEntry_wf
      rw [wfE_iff] at h ⊢
      simp only [mkEntry_key, mkEntry_value] at h ⊢
      exact ⟨h.1, normalizeValue_wf v h.2⟩
end

mutual
/-- Normalization establishes the C2 invariant on well-formed values. -/
theorem normalizeValue_norm1 : ∀ v, wfV v = true → norm1V (normalizeValue v) = true
  | .bool _, _ => rfl
  | .strv _ _ _, _ => rfl
  | .integer _ _, _ => rfl
  | .float _, _ => rfl
  | .date _, _ => rfl
  | .empty, h => by cases h
  | .array (.mk s tb items), h => by
      simp only [wfV, Bool.and_eq_true] at h
      simp only [normalizeValue, norm1V]
      exact normalizeItems_norm1 items h.2
  | .table (.mk s a p es), h => by
      simp only [wfV] at h
      simp only [normalizeValue, norm1V]
      exact normalizeEntries_norm1 es h
/-- Companion of normalizeValue_norm1 for item lists. -/
theorem normalizeItems_norm1 : ∀ l, wfItems l = true → norm1Items (normalizeItems l) = true
  | [], _ => rfl
  | v :: vs, h => by
      simp only [wfItems, Bool.and_eq_true] at h
      rw [show normalizeItems (v :: vs) = normalizeValue v :: normalizeItems vs
        from rfl]
      simp only [norm1Items, Bool.and_eq_true]
      exact ⟨normalizeValue_norm1 v h.1, normalizeItems_norm1 vs h.2⟩
/-- Companion of normalizeValue_norm1 for entry lists. -/
theorem normalizeEntries_norm1 : ∀ l, wfEs l = true → norm1Tab (normalizeEntries l) = true
  | [], _ => rfl
  | e :: es, h => by
      rw [wfEs_cons, Bool.and_eq_true] at h
      rw [show normalizeEntries (e :: es) = normalizeOne e :: normalizeEntries es
        from rfl]
      obtain ⟨h1, h2⟩ := normalizeOne_norm1 e h.1
      cases hone : normalizeOne e with
      | mk s2 k2 v2 =>
        rw [hone] at h1 h2
        simp only [norm1Tab, Bool.and_eq_true, mkEntry_key, mkEntry_value] at h1 h2 ⊢
        refine ⟨⟨?_, h2⟩, normalizeEntries_norm1 es h.2⟩
        rw [Nat.beq_eq_true_eq]
        exact h1
/-- Companion of normalizeValue_norm1 for one entry. -/
theorem normalizeOne_norm1 : ∀ e, wfE e = true →
    (normalizeOne e).key.keyCount = 1 ∧ norm1V (normalizeOne e).value = true
  | .mk s k v, h => by
      rw [show normalizeOne (.mk s k v)
        = normalizeEntry (EntryNode.mk s k (normalizeValue v)) from rfl]
      rw [wfE_iff] at h
      simp only [mkEntry_key, mkEntry_value] at h
      exact normGo_norm1 _ _ h.1 (normalizeValue_norm1 v h.2)
        (Nat.le_succ_of_le (Nat.le_refl _))
end

/-- The root form of the C2 invariant follows from the table form. -/
theorem norm1Root_of_norm1Tab (es : List EntryNode) (h : norm1Tab es = true) :
    norm1Root es = true := by
  induction es with
  | nil => rfl
  | cons e rest ih =>
    cases e with
    | mk s k v =>
      simp only [norm1Tab, Bool.and_eq_true] at h
      unfold norm1Root
      rw [List.all_cons, Bool.and_eq_true]
      exact ⟨h.1.2, ih h.2⟩

end NormalizeInvariant

section FinalClaims

/-- C2 (amended): if the walk over the ROOT children recorded no errors,
then after root construction every key of an entry contained in any Table
of the resulting DOM has exactly one ident; dotted keys are fully expanded
into nested tables.  (The original claim, quantified over all
syntactically valid inputs, fails: when the walk records an error,
RootNode::cast skips normalization and returns flat entries whose nested
dotted keys keep several idents.) -/
theorem c2_tables_have_single_ident_keys (f : Nat) (s : Syn) (r : RootNode)
    (h : castRootF f s = some r) (he : (walkRoot f s).errors = []) :
    norm1Root r.entries = true := by
  obtain ⟨merged, errs2, hm, hr⟩ := (castRootF_structure f s r h).1 he
  rw [hr]
  have hwfIn : wfEs (entriesFromMap (walkRoot f s).entries) = true :=
    entriesFromMap_wf _ (walkRoot_wf f s)
  have hwf : wfEs merged = true :=
    (merge_wf f).2.2 _ [] _ (merged, errs2) hm hwfIn rfl
  exact norm1Root_of_norm1Tab _ (normalizeEntries_norm1 merged hwf)

/-- Witness for C2 at the dotted-key document a.b = 1, a.c = 2, whose walk
records no errors. -/
theorem c2_tables_have_single_ident_keys_witness :
    (castRootF 20 c1Input).map (fun r => norm1Root r.entries) = some true := by
  cases hr : castRootF 20 c1Input with
  | none => exact absurd hr (by decide)
  | some r =>
    have := c2_tables_have_single_ident_keys 20 c1Input r hr (by decide)
    simp only [Option.map_some', this]

/-- C3: in every DOM returned by root construction, every Array value whose
tables flag is true has items that are all Tables with the array flag
false. -/
theorem c3_arrays_of_tables_shape (f : Nat) (s : Syn) (r : RootNode)
    (h : castRootF f s = some r) :
    aotOkEs r.entries = true := by
  have hwfIn : wfEs (entriesFromMap (walkRoot f s).entries) = true :=
    entriesFromMap_wf _ (walkRoot_wf f s)
  by_cases he : (walkRoot f s).errors = []
  · obtain ⟨merged, errs2, hm, hr⟩ := (castRootF_structure f s r h).1 he
    rw [hr]
    have hwf : wfEs merged = true :=
      (merge_wf f).2.2 _ [] _ (merged, errs2) hm hwfIn rfl
    exact aotOkEs_of_wfEs _ (normalizeEntriesList_wf merged hwf)
  · rw [(castRootF_structure f s r h).2 he]
    exact aotOkEs_of_wfEs _ hwfIn

/-- Witness for C3 at the dotted-key document a.b = 1, a.c = 2. -/
theorem c3_arrays_of_tables_shape_witness :
    (castRootF 20 c1Input).map (fun r => aotOkEs r.entries) = some true := by
  cases hr : castRootF 20 c1Input with
  | none => exact absurd hr (by decide)
  | some r =>
    have := c3_arrays_of_tables_shape 20 c1Input r hr
    simp only [Option.map_some', this]

end FinalClaims

section CastStabilization

/-- Every syntax element has positive size. -/
theorem synSize_pos : ∀ s : Syn, 1 ≤ synSize s
  | .tok _ _ => le_refl 1
  | .node _ cs => by simp only [synSize]; omega

/-- A member of a list of elements weighs at most the list. -/
theorem mem_synSizeList : ∀ (cs : List Syn) (c : Syn), c ∈ cs →
    synSize c ≤ synSizeList cs
  | [], c, h => absurd h (List.not_mem_nil c)
  | x :: xs, c, h => by
      simp only [synSizeList]
      cases List.mem_cons.mp h with
      | inl he => subst he; exact Nat.le_add_right _ _
      | inr hm => exact le_trans (mem_synSizeList xs c hm) (Nat.le_add_left _ _)

/-- A child weighs strictly less than its parent element. -/
theorem child_synSize (s c : Syn) (h : c ∈ s.childrenWithTokens) :
    synSize c < synSize s := by
  cases s with
  | tok k t =>
    simp only [Syn.childrenWithTokens] at h
    exact absurd h (List.not_mem_nil c)
  | node k cs =>
    simp only [Syn.childrenWithTokens] at h
    have := mem_synSizeList cs c h
    simp only [synSize]
    omega

/-- The first child or token is a child. -/
theorem firstChildOrToken_mem (s c : Syn) (h : s.firstChildOrToken = some c) :
    c ∈ s.childrenWithTokens := by
  unfold Syn.firstChildOrToken at h
  cases hcs : s.childrenWithTokens with
  | nil => rw [hcs] at h; cases h
  | cons x xs =>
    rw [hcs] at h
    rw [List.head?_cons, Option.some_inj] at h
    rw [h]
    exact List.mem_cons_self _ _

/-- Node children are children. -/
theorem nodeChildren_mem (s c : Syn) (i : Nat)
    (h : s.nodeChildren.get? i = some c) : c ∈ s.childrenWithTokens :=
  List.mem_of_mem_filter (List.get?_mem h)

mutual
/-- A descendant never weighs more than the element itself. -/
theorem mem_desc_size : ∀ (s c : Syn), c ∈ synDescendants s →
    synSize c ≤ synSize s
  | .tok k t, c, h => by
      simp only [synDescendants] at h
      have he := List.mem_singleton.mp h
      subst he
      exact le_refl _
  | .node k cs, c, h => by
      simp only [synDescendants] at h
      cases List.mem_cons.mp h with
      | inl he => subst he; exact le_refl _
      | inr hm =>
        have := mem_descList_size cs c hm
        simp only [synSize]
        omega
/-- Companion of mem_desc_size for child lists. -/
theorem mem_descList_size : ∀ (cs : List Syn) (c : Syn),
    c ∈ synDescendants.synDescendantsList cs → synSize c ≤ synSizeList cs
  | [], c, h => by
      simp only [synDescendants.synDescendantsList] at h
      exact absurd h (List.not_mem_nil c)
  | x :: xs, c, h => by
      simp only [synDescendants.synDescendantsList] at h
      cases List.mem_append.mp h with
      | inl h1 =>
        have := mem_desc_size x c h1
        simp only [synSizeList]
        omega
      | inr h2 =>
        have := mem_descList_size xs c h2
        simp only [synSizeList]
        omega
end

/-- Stabilization of the cast family: above four times the syntax size (plus
a per-function offset absorbing the indirection through the kind dispatch),
the fuel does not influence the result of any cast. -/
theorem cast_stable : ∀ n : Nat, ∀ s : Syn, synSize s ≤ n →
    (∀ f g, 4*n ≤ f → 4*n ≤ g → castValueF f s = castValueF g s) ∧
    (∀ f g, 4*n ≤ f → 4*n ≤ g → castEntryF f s = castEntryF g s) ∧
    (∀ f g, 4*n+1 ≤ f → 4*n+1 ≤ g → castTableF f s = castTableF g s) ∧
    (∀ f g, 4*n+1 ≤ f → 4*n+1 ≤ g → castArrayF f s = castArrayF g s) ∧
    (∀ f g, 4*n+2 ≤ f → 4*n+2 ≤ g → dispatchValueF f s = dispatchValueF g s) := by
  intro n
  induction n using Nat.strong_induction_on with
  | _ n ih =>
    have hval : ∀ s : Syn, synSize s ≤ n → ∀ f g, 4*n ≤ f → 4*n ≤ g →
        castValueF f s = castValueF g s := by
      intro s hs f g hf hg
      have hn1 : 1 ≤ n := le_trans (synSize_pos s) hs
      obtain ⟨f', rfl⟩ : ∃ x, f = x + 1 := ⟨f - 1, by omega⟩
      obtain ⟨g', rfl⟩ : ∃ x, g = x + 1 := ⟨g - 1, by omega⟩
      simp only [castValueF]
      split_ifs with hb
      · rfl
      · cases hc : s.firstChildOrToken with
        | none => rfl
        | some c =>
          have hlt := child_synSize s c (firstChildOrToken_mem s c hc)
          exact (ih (n-1) (by omega) c (by omega)).2.2.2.2 f' g'
            (by omega) (by omega)
    have hent : ∀ s : Syn, synSize s ≤ n → ∀ f g, 4*n ≤ f → 4*n ≤ g →
        castEntryF f s = castEntryF g s := by
      intro s hs f g hf hg
      have hn1 : 1 ≤ n := le_trans (synSize_pos s) hs
      obtain ⟨f', rfl⟩ : ∃ x, f = x + 1 := ⟨f - 1, by omega⟩
      obtain ⟨g', rfl⟩ : ∃ x, g = x + 1 := ⟨g - 1, by omega⟩
      simp only [castEntryF]
      split_ifs with hk hb
      · rfl
      · rfl
      · cases hkey : s.firstChildOrToken >>= castKeyNode with
        | none => rfl
        | some k =>
          cases hvn : s.nodeChildren.get? 1 with
          | none => rfl
          | some vn =>
            have hlt := child_synSize s vn (nodeChildren_mem s vn 1 hvn)
            exact congrArg
              (fun r : Option ValueNode => match r with
                | none => none
                | some v => some (EntryNode.mk s k v))
              ((ih (n-1) (by omega) vn (by omega)).1 f' g' (by omega) (by omega))
    have htab : ∀ s : Syn, synSize s ≤ n → ∀ f g, 4*n+1 ≤ f → 4*n+1 ≤ g →
        castTableF f s = castTableF g s := by
      intro s hs f g hf hg
      have hn1 : 1 ≤ n := le_trans (synSize_pos s) hs
      obtain ⟨f', rfl⟩ : ∃ x, f = x + 1 := ⟨f - 1, by omega⟩
      obtain ⟨g', rfl⟩ : ∃ x, g = x + 1 := ⟨g - 1, by omega⟩
      simp only [castTableF]
      split_ifs with hb
      · rfl
      · cases hk : s.kind
        all_goals try rfl
        have hlst : List.filterMap (castEntryF f') s.childrenWithTokens
            = List.filterMap (castEntryF g') s.childrenWithTokens := by
          apply List.filterMap_congr
          intro c hc
          have hlt := child_synSize s c hc
          exact (ih (n-1) (by omega) c (by omega)).2.1 f' g' (by omega) (by omega)
        rw [hlst]
    have harr : ∀ s : Syn, synSize s ≤ n → ∀ f g, 4*n+1 ≤ f → 4*n+1 ≤ g →
        castArrayF f s = castArrayF g s := by
      intro s hs f g hf hg
      have hn1 : 1 ≤ n := le_trans (synSize_pos s) hs
      obtain ⟨f', rfl⟩ : ∃ x, f = x + 1 := ⟨f - 1, by omega⟩
      obtain ⟨g', rfl⟩ : ∃ x, g = x + 1 := ⟨g - 1, by omega⟩
      simp only [castArrayF]
      split_ifs with hb
      · rfl
      · cases hk : s.kind
        all_goals try rfl
        have hlst : List.filterMap (castValueF f') (synDescendants s)
            = List.filterMap (castValueF g') (synDescendants s) := by
          apply List.filterMap_congr
          intro c hc
          have hle := mem_desc_size s c hc
          exact hval c (by omega) f' g' (by omega) (by omega)
        rw [hlst]
    have hdisp : ∀ s : Syn, synSize s ≤ n → ∀ f g, 4*n+2 ≤ f → 4*n+2 ≤ g →
        dispatchValueF f s = dispatchValueF g s := by
      intro s hs f g hf hg
      have hn1 : 1 ≤ n := le_trans (synSize_pos s) hs
      obtain ⟨f', rfl⟩ : ∃ x, f = x + 1 := ⟨f - 1, by omega⟩
      obtain ⟨g', rfl⟩ : ∃ x, g = x + 1 := ⟨g - 1, by omega⟩
      simp only [dispatchValueF]
      cases hk : s.kind
      all_goals try rfl
      all_goals rw [htab s hs f' g' (by omega) (by omega),
        harr s hs f' g' (by omega) (by omega)]
    intro s hs
    exact ⟨hval s hs, hent s hs, htab s hs, harr s hs, hdisp s hs⟩

end CastStabilization

section WalkStabilization

/-- One walk step does not depend on the fuel once it covers the child. -/
theorem walkStep_stable (f g : Nat) (st : WalkState) (c : Syn)
    (hf : 4*synSize c + 2 ≤ f) (hg : 4*synSize c + 2 ≤ g) :
    walkStep f st c = walkStep g st c := by
  have hcs := cast_stable (synSize c) c (le_refl _)
  have ht := hcs.2.2.1 f g (by omega) (by omega)
  have he := hcs.2.1 f g (by omega) (by omega)
  unfold walkStep
  simp only [ht, he]

/-- The walk fold does not depend on the fuel once it covers every child. -/
theorem foldl_walkStep_stable : ∀ (cs : List Syn) (f g : Nat) (st : WalkState),
    (∀ c ∈ cs, 4*synSize c + 2 ≤ f) → (∀ c ∈ cs, 4*synSize c + 2 ≤ g) →
    cs.foldl (walkStep f) st = cs.foldl (walkStep g) st
  | [], _, _, _, _, _ => rfl
  | c :: cs, f, g, st, hf, hg => by
      rw [List.foldl_cons, List.foldl_cons,
        walkStep_stable f g st c (hf c (List.mem_cons_self c cs))
          (hg c (List.mem_cons_self c cs))]
      exact foldl_walkStep_stable cs f g _
        (fun x hx => hf x (List.mem_cons_of_mem c hx))
        (fun x hx => hg x (List.mem_cons_of_mem c hx))

/-- The whole walk does not depend on the fuel once it covers the root. -/
theorem walkRoot_stable (f g : Nat) (s : Syn)
    (hf : 4*synSize s + 2 ≤ f) (hg : 4*synSize s + 2 ≤ g) :
    walkRoot f s = walkRoot g s := by
  have hfold : s.childrenWithTokens.foldl (walkStep f) ⟨[], none, [], []⟩
      = s.childrenWithTokens.foldl (walkStep g) ⟨[], none, [], []⟩ := by
    apply foldl_walkStep_stable
    · intro c hc
      have := child_synSize s c hc
      omega
    · intro c hc
      have := child_synSize s c hc
      omega
  simp only [walkRoot, hfold]

end WalkStabilization

section MergeSizes

/-- The number of surviving quoted parts equals the ident count. -/
theorem keysStr_len (k : KeyNode) : k.keysStr.length = k.idents.length := by
  unfold KeyNode.keysStr
  exact List.length_map _ _

/-- The common-run count never exceeds the left list. -/
theorem cpcGo_le_left : ∀ l m : List Str,
    KeyNode.commonPfxCount.go l m ≤ l.length
  | [], m => by
      have h0 : KeyNode.commonPfxCount.go [] m = 0 := by cases m <;> rfl
      rw [h0]
      exact Nat.zero_le _
  | a :: as, [] => by
      rw [show KeyNode.commonPfxCount.go (a :: as) [] = 0 from rfl]
      exact Nat.zero_le _
  | a :: as, b :: bs => by
      rw [show KeyNode.commonPfxCount.go (a :: as) (b :: bs)
        = if a = b then KeyNode.commonPfxCount.go as bs + 1 else 0 from rfl]
      split
      · have := cpcGo_le_left as bs
        simp only [List.length_cons]
        omega
      · exact Nat.zero_le _

/-- The common-run count never exceeds the right list. -/
theorem cpcGo_le_right : ∀ l m : List Str,
    KeyNode.commonPfxCount.go l m ≤ m.length
  | [], m => by
      have h0 : KeyNode.commonPfxCount.go [] m = 0 := by cases m <;> rfl
      rw [h0]
      exact Nat.zero_le _
  | a :: as, [] => by
      rw [show KeyNode.commonPfxCount.go (a :: as) [] = 0 from rfl]
      exact Nat.zero_le _
  | a :: as, b :: bs => by
      rw [show KeyNode.commonPfxCount.go (a :: as) (b :: bs)
        = if a = b then KeyNode.commonPfxCount.go as bs + 1 else 0 from rfl]
      split
      · have := cpcGo_le_right as bs
        simp only [List.length_cons]
        omega
      · exact Nat.zero_le _

/-- Against its own take, the common-run count is exact. -/
theorem cpcGo_take : ∀ (l : List Str) (c : Nat), c ≤ l.length →
    KeyNode.commonPfxCount.go l (l.take c) = c
  | l, 0, _ => by cases l <;> rfl
  | [], c+1, h => by simp at h
  | a :: as, c+1, h => by
      rw [show (a :: as).take (c+1) = a :: as.take c from rfl]
      rw [show KeyNode.commonPfxCount.go (a :: as) (a :: as.take c)
        = if a = a then KeyNode.commonPfxCount.go as (as.take c) + 1 else 0 from rfl]
      rw [if_pos rfl,
        cpcGo_take as c (by simp only [List.length_cons] at h; omega)]

/-- The two lists agree on their common run. -/
theorem cpcGo_agree : ∀ l m : List Str,
    l.take (KeyNode.commonPfxCount.go l m) = m.take (KeyNode.commonPfxCount.go l m)
  | [], m => by
      have h0 : KeyNode.commonPfxCount.go [] m = 0 := by cases m <;> rfl
      rw [h0]
      rfl
  | a :: as, [] => by
      rw [show KeyNode.commonPfxCount.go (a :: as) [] = 0 from rfl]
      rfl
  | a :: as, b :: bs => by
      rw [show KeyNode.commonPfxCount.go (a :: as) (b :: bs)
        = if a = b then KeyNode.commonPfxCount.go as bs + 1 else 0 from rfl]
      split
      · rename_i hab
        rw [show (a :: as).take (KeyNode.commonPfxCount.go as bs + 1)
            = a :: as.take (KeyNode.commonPfxCount.go as bs) from rfl,
          show (b :: bs).take (KeyNode.commonPfxCount.go as bs + 1)
            = b :: bs.take (KeyNode.commonPfxCount.go as bs) from rfl,
          hab, cpcGo_agree as bs]
      · rfl

/-- A full-length common run pins the left list as a front of the right. -/
theorem cpcGo_eq_left_len : ∀ l m : List Str,
    KeyNode.commonPfxCount.go l m = l.length →
    l.length ≤ m.length ∧ ∀ p ∈ l.zip m, p.1 = p.2
  | [], m, _ => by simp
  | a :: as, [], h => by simp [KeyNode.commonPfxCount.go] at h
  | a :: as, b :: bs, h => by
      simp only [KeyNode.commonPfxCount.go] at h
      split at h
      · rename_i hab
        simp only [List.length_cons, Nat.add_right_cancel_iff] at h
        obtain ⟨h1, h2⟩ := cpcGo_eq_left_len as bs h
        refine ⟨by simp only [List.length_cons]; omega, ?_⟩
        intro p hp
        rw [List.zip_cons_cons] at hp
        cases List.mem_cons.mp hp with
        | inl he => subst he; exact hab
        | inr hm => exact h2 p hm
      · simp at h

/-- A full-length common run pins the right list as a front of the left. -/
theorem cpcGo_eq_right_len : ∀ l m : List Str,
    KeyNode.commonPfxCount.go l m = m.length →
    m.length ≤ l.length ∧ ∀ p ∈ m.zip l, p.1 = p.2
  | l, [], _ => by simp
  | [], b :: bs, h => by simp [KeyNode.commonPfxCount.go] at h
  | a :: as, b :: bs, h => by
      simp only [KeyNode.commonPfxCount.go] at h
      split at h
      · rename_i hab
        simp only [List.length_cons, Nat.add_right_cancel_iff] at h
        obtain ⟨h1, h2⟩ := cpcGo_eq_right_len as bs h
        refine ⟨by simp only [List.length_cons]; omega, ?_⟩
        intro p hp
        rw [List.zip_cons_cons] at hp
        cases List.mem_cons.mp hp with
        | inl he => subst he; exact hab.symm
        | inr hm => exact h2 p hm
      · simp at h

/-- Pairwise agreement up to the shorter length makes is_part_of true. -/
theorem isPartOf_of_agree (a b : KeyNode)
    (hlen : a.idents.length ≤ b.idents.length)
    (hagree : ∀ p ∈ a.keysStr.zip b.keysStr, p.1 = p.2) :
    a.isPartOf b = true := by
  unfold KeyNode.isPartOf
  rw [if_neg (by omega)]
  rw [List.all_eq_true]
  intro p hp
  rw [decide_eq_true_eq]
  exact hagree p hp

/-- When neither key is part of the other, the common run is strictly
shorter than both. -/
theorem cpc_lt_of_not_isPartOf (a b : KeyNode)
    (hab : a.isPartOf b = false) (hba : b.isPartOf a = false) :
    a.commonPfxCount b < a.idents.length ∧
    a.commonPfxCount b < b.idents.length := by
  unfold KeyNode.commonPfxCount
  have h1 := cpcGo_le_left a.keysStr b.keysStr
  have h2 := cpcGo_le_right a.keysStr b.keysStr
  rw [keysStr_len] at h1
  rw [keysStr_len] at h2
  constructor
  · rcases Nat.lt_or_ge (KeyNode.commonPfxCount.go a.keysStr b.keysStr)
      a.idents.length with h | h
    · exact h
    · exfalso
      have heq : KeyNode.commonPfxCount.go a.keysStr b.keysStr
          = a.keysStr.length := by rw [keysStr_len]; omega
      obtain ⟨hl, hp⟩ := cpcGo_eq_left_len _ _ heq
      rw [keysStr_len, keysStr_len] at hl
      have := isPartOf_of_agree a b hl hp
      rw [hab] at this
      cases this
  · rcases Nat.lt_or_ge (KeyNode.commonPfxCount.go a.keysStr b.keysStr)
      b.idents.length with h | h
    · exact h
    · exfalso
      have heq : KeyNode.commonPfxCount.go a.keysStr b.keysStr
          = b.keysStr.length := by rw [keysStr_len]; omega
      obtain ⟨hl, hp⟩ := cpcGo_eq_right_len _ _ heq
      rw [keysStr_len, keysStr_len] at hl
      have := isPartOf_of_agree b a hl hp
      rw [hba] at this
      cases this

/-- The unquoted parts of an outer key are a take of the original. -/
theorem keysStr_outer_take (k : KeyNode) (c : Nat) (hc : 1 ≤ c) :
    (k.outer c).keysStr = k.keysStr.take c := by
  unfold KeyNode.outer KeyNode.keysStr
  simp only
  rw [show Nat.max 1 c = max 1 c from rfl, Nat.max_eq_right hc, List.map_take]

/-- Length of a key after removing a base that is its exact take. -/
theorem withoutPfx_len_take (self base : KeyNode) (c : Nat)
    (hcs : base.keysStr = self.keysStr.take c)
    (h1 : 1 ≤ c) (h2 : c < self.idents.length) :
    (self.withoutPfx base).idents.length = self.idents.length - c := by
  have hcount : self.commonPfxCount base = c := by
    unfold KeyNode.commonPfxCount
    rw [hcs]
    exact cpcGo_take _ c (by rw [keysStr_len]; omega)
  unfold KeyNode.withoutPfx
  rw [hcount, if_pos (by omega)]
  unfold KeyNode.inner
  simp only
  have hmin : Nat.min c (self.idents.length - 1) = c := by
    rw [show Nat.min c (self.idents.length - 1)
      = min c (self.idents.length - 1) from rfl]
    omega
  rw [hmin, if_neg (by omega), List.length_drop]

/-- Removing a common prefix never lengthens a key. -/
theorem withoutPfx_len_le (self other : KeyNode) :
    (self.withoutPfx other).idents.length ≤ self.idents.length := by
  simp only [KeyNode.withoutPfx]
  split
  · unfold KeyNode.inner
    simp only
    split
    · exact le_refl _
    · rw [List.length_drop]; omega
  · exact le_refl _

/-- Entry-list sizes add over append. -/
theorem sizeEs_append : ∀ l1 l2 : List EntryNode,
    sizeEs (l1 ++ l2) = sizeEs l1 + sizeEs l2
  | [], l2 => by simp [sizeEs]
  | (.mk s k v) :: es, l2 => by
      rw [show sizeEs ((EntryNode.mk s k v :: es) ++ l2)
          = 2 * k.idents.length + sizeV v + sizeEs (es ++ l2) from rfl,
        show sizeEs (EntryNode.mk s k v :: es)
          = 2 * k.idents.length + sizeV v + sizeEs es from rfl,
        sizeEs_append es l2]
      omega

/-- Entry-list size over cons. -/
theorem sizeEs_cons (e : EntryNode) (es : List EntryNode) :
    sizeEs (e :: es) = sizeE e + sizeEs es := by
  cases e
  simp only [sizeEs, sizeE]
  rfl

/-- Value-list sizes add over append. -/
theorem sizeVs_append : ∀ l1 l2 : List ValueNode,
    sizeVs (l1 ++ l2) = sizeVs l1 + sizeVs l2
  | [], l2 => by simp [sizeVs]
  | v :: vs, l2 => by
      rw [show sizeVs ((v :: vs) ++ l2) = sizeV v + sizeVs (vs ++ l2) from rfl,
        show sizeVs (v :: vs) = sizeV v + sizeVs vs from rfl,
        sizeVs_append vs l2]
      omega

/-- Size of an entry with a replaced key. -/
theorem sizeE_withKey (e : EntryNode) (k : KeyNode) :
    sizeE (e.withKey k) = 2 * k.idents.length + sizeV e.value := rfl

/-- Size of an entry with a replaced value. -/
theorem sizeE_withValue (e : EntryNode) (v : ValueNode) :
    sizeE (e.withValue v) = 2 * e.key.idents.length + sizeV v := rfl

/-- Size of an entry in terms of key and value. -/
theorem sizeE_eq (e : EntryNode) :
    sizeE e = 2 * e.key.idents.length + sizeV e.value := rfl

/-- The members of a value list weigh at most the list. -/
theorem sizeV_le_of_mem : ∀ (l : List ValueNode) (v : ValueNode), v ∈ l →
    sizeV v ≤ sizeVs l
  | [], v, h => absurd h (List.not_mem_nil v)
  | x :: xs, v, h => by
      simp only [sizeVs]
      cases List.mem_cons.mp h with
      | inl he => subst he; omega
      | inr hm => have := sizeV_le_of_mem xs v hm; omega

/-- A list with a last element splits off that element. -/
theorem sizeVs_getLast (l : List ValueNode) (x : ValueNode)
    (h : l.getLast? = some x) :
    sizeVs l = sizeVs l.dropLast + sizeV x := by
  have hne : l ≠ [] := by
    intro hl
    rw [hl] at h
    cases h
  rw [List.getLast?_eq_getLast l hne, Option.some_inj] at h
  conv =>
    lhs
    rw [← List.dropLast_append_getLast hne]
  rw [sizeVs_append, h]
  simp [sizeVs]

/-- The array transformation of Entries::merge preserves the weighted
size. -/
theorem sizeE_arrayTransform (e : EntryNode) :
    sizeE (arrayTransform e) = sizeE e := by
  obtain ⟨s, k, v⟩ := e
  cases v with
  | table t =>
    obtain ⟨ts, ta, tp, tes⟩ := t
    cases ta with
    | false => rfl
    | true =>
      rw [show sizeE (arrayTransform (EntryNode.mk s k
            (ValueNode.table (TableNode.mk ts true tp tes))))
          = 2 * k.idents.length + (1 + ((1 + sizeEs tes) + 0)) from rfl,
        show sizeE (EntryNode.mk s k
            (ValueNode.table (TableNode.mk ts true tp tes)))
          = 2 * k.idents.length + (2 + sizeEs tes) from rfl]
      omega
  | array a => rfl
  | bool t => rfl
  | strv t sk c => rfl
  | integer t r => rfl
  | float t => rfl
  | date t => rfl
  | empty => rfl

end MergeSizes

section MergeShapes

/-- Length of an outer key within range. -/
theorem outer_len_of (k : KeyNode) (c : Nat) (h1 : 1 ≤ c)
    (h2 : c ≤ k.idents.length) : (k.outer c).idents.length = c := by
  unfold KeyNode.outer
  simp only [List.length_take]
  rw [show Nat.max 1 c = max 1 c from rfl]
  omega

/-- Reindexing does not change the size of an entry. -/
theorem sizeE_reindex (e : EntryNode) :
    sizeE (e.withKey (e.key.withIndex 0)) = sizeE e := by
  rw [sizeE_withKey, withIndex_idents, sizeE_eq]

/-- A merge_entry outcome other than Ok(true) leaves the old entry
untouched. -/
theorem mergeEntryF_not_merged : ∀ (f : Nat) (old new : EntryNode)
    (errs : List Error) (out : EntryNode × List Error × MergeRes),
    mergeEntryF f old new errs = some out → out.2.2 ≠ .merged →
    out.1 = old := by
  intro f old new errs out h hne
  match f with
  | 0 => rw [show mergeEntryF 0 old new errs = none from rfl] at h; cases h
  | f+1 =>
    simp only [mergeEntryF] at h
    split at h
    · split at h
      · split at h
        · cases h; rfl
        · split at h
          · cases h
          · cases h; exact absurd rfl hne
      · split at h
        · cases h; rfl
        · split at h
          · split at h
            · cases h; exact absurd rfl hne
            · split at h
              · split at h
                · cases h
                · cases h; exact absurd rfl hne
              · cases h
              · cases h
          · cases h
          · split at h
            · split at h
              · cases h
              · cases h; exact absurd rfl hne
            · cases h
            · cases h
      · cases h
      · cases h; rfl
    · split at h
      · split at h
        · cases h
        · cases h; exact absurd rfl hne
        · cases h; rfl
        · cases h; rfl
      · split at h
        · cases h; exact absurd rfl hne
        · cases h; rfl

/-- When the inner merge loop reports should_insert, the accumulated
entries are unchanged. -/
theorem tryMergeF_ins_acc : ∀ (f : Nat) (acc : List EntryNode)
    (e : EntryNode) (errs : List Error)
    (out : List EntryNode × List Error × Bool),
    tryMergeF f acc e errs = some out → out.2.2 = true → out.1 = acc := by
  intro f
  induction f with
  | zero =>
    intro acc e errs out h _
    rw [show tryMergeF 0 acc e errs = none from rfl] at h
    cases h
  | succ f ih =>
    intro acc e errs out h hins
    cases acc with
    | nil =>
      rw [show tryMergeF (f+1) [] e errs = some ([], errs, true) from rfl] at h
      cases h
      rfl
    | cons existing rest =>
      simp only [tryMergeF] at h
      split at h
      · cases h
      · rename_i existing2 errors2 heq2
        cases h
        exact Bool.noConfusion hins
      · rename_i existing2 errors2 heq2
        split at h
        · cases h
        · rename_i rest2 errors3 ins heq3
          cases h
          have h1 := mergeEntryF_not_merged f existing e errs _ heq2
            (fun hx => MergeRes.noConfusion hx)
          have h2 := ih rest e errors2 _ heq3 hins
          simp only at h1 h2 ⊢
          rw [h1, h2]
      · rename_i existing2 errors2 e2 heq2
        cases h
        exact Bool.noConfusion hins

/-- Merge never increases the weighted sizes: merge_entry stays within the
sizes of its two arguments, the inner loop within the accumulator plus the
entry, and merge within input plus accumulator. -/
theorem merge_size : ∀ f : Nat,
    (∀ old new errs out, mergeEntryF f old new errs = some out →
        sizeE out.1 ≤ sizeE old + sizeE new) ∧
    (∀ acc e errs out, tryMergeF f acc e errs = some out →
        sizeEs out.1 ≤ sizeEs acc + sizeE e) ∧
    (∀ inp acc errs out, mergeF f inp acc errs = some out →
        sizeEs out.1 ≤ sizeEs inp + sizeEs acc) := by
  intro f
  induction f with
  | zero =>
    refine ⟨?_, ?_, ?_⟩ <;> intro a b c o h
    · rw [show mergeEntryF 0 a b c = none from rfl] at h; cases h
    · rw [show tryMergeF 0 a b c = none from rfl] at h; cases h
    · rw [show mergeF 0 a b c = none from rfl] at h; cases h
  | succ f ih =>
    obtain ⟨ihMe, ihTry, ihGo⟩ := ih
    have hnil : sizeEs ([] : List EntryNode) = 0 := rfl
    refine ⟨?_, ?_, ?_⟩
    · intro old new errs out h
      simp only [mergeEntryF] at h
      split at h
      · -- old.key is_part_of new.key
        split at h
        · -- old.value is a table t
          rename_i t heqv
          obtain ⟨ts, ta, tp, te⟩ := t
          split at h
          · cases h
            exact Nat.le_add_right _ _
          · split at h
            · cases h
            · rename_i es errors2 heq2
              cases h
              have hres := ihGo _ _ _ _ heq2
              rw [hnil, sizeEs_append, sizeEs_cons, hnil] at hres
              have hto := withoutPfx_len_le new.key old.key
              rw [sizeE_withKey] at hres
              simp only [sizeE_withValue, TableNode.stx, TableNode.array,
                TableNode.pseudo, sizeV, TableNode.entries] at hres ⊢
              rw [sizeE_eq old, heqv, sizeE_eq new]
              simp only [sizeV]
              omega
        · -- old.value is an array
          rename_i oldArr heqv
          obtain ⟨oaStx, oaTables, oaItems⟩ := oldArr
          simp only [ArrayNode.stx, ArrayNode.tables, ArrayNode.items] at h
          split at h
          · cases h
            exact Nat.le_add_right _ _
          · split at h
            · -- new.value is a table newT
              rename_i newT heqvNew
              obtain ⟨ntStx, ntArr, ntPseudo, ntEs⟩ := newT
              split at h
              · -- push onto the array of tables
                rename_i hcond
                have hArr : ntArr = true := by
                  rw [Bool.and_eq_true] at hcond
                  exact hcond.2
                subst hArr
                cases h
                simp only [sizeE_withValue, sizeV, TableNode.stx,
                  TableNode.pseudo, TableNode.entries]
                rw [sizeVs_append, sizeE_eq old, heqv, sizeE_eq new, heqvNew]
                simp only [sizeV, sizeVs, Bool.false_eq_true, if_false, if_true,
                  eq_self_iff_true]
                omega
              · -- merge into the last element
                split at h
                · rename_i arrT hlast
                  obtain ⟨atStx, atArr, atPseudo, atEs⟩ := arrT
                  split at h
                  · cases h
                  · rename_i es errors2 heq2
                    cases h
                    have hres := ihGo _ _ _ _ heq2
                    rw [hnil, sizeEs_append, sizeEs_cons, hnil] at hres
                    rw [sizeE_withKey] at hres
                    have hto := withoutPfx_len_le new.key old.key
                    have hsplit := sizeVs_getLast oaItems _ hlast
                    simp only [TableNode.stx, TableNode.array,
                      TableNode.pseudo, TableNode.entries, sizeV] at hres hsplit ⊢
                    simp only [sizeE_withValue, sizeV]
                    rw [sizeVs_append, sizeE_eq old, heqv, sizeE_eq new]
                    simp only [sizeV, sizeVs]
                    omega
                · cases h
                · cases h
            · cases h
            · -- new.value is neither table nor empty
              split at h
              · rename_i arrT hlast
                obtain ⟨atStx, atArr, atPseudo, atEs⟩ := arrT
                split at h
                · cases h
                · rename_i es errors2 heq2
                  cases h
                  have hres := ihGo _ _ _ _ heq2
                  rw [hnil, sizeEs_append, sizeEs_cons, hnil] at hres
                  rw [sizeE_withKey] at hres
                  have hto := withoutPfx_len_le new.key old.key
                  have hsplit := sizeVs_getLast oaItems _ hlast
                  simp only [TableNode.stx, TableNode.array,
                    TableNode.pseudo, TableNode.entries, sizeV] at hres hsplit ⊢
                  simp only [sizeE_withValue, sizeV]
                  rw [sizeVs_append, sizeE_eq old, heqv, sizeE_eq new]
                  simp only [sizeV, sizeVs]
                  omega
              · cases h
              · cases h
        · cases h
        · cases h
          exact Nat.le_add_right _ _
      · rename_i hpart
        split at h
        · -- the swap branch
          rename_i hswapT
          split at h
          · cases h
          · rename_i newOld errors2 heq2
            cases h
            have := ihMe _ _ _ _ heq2
            simp only at this ⊢
            omega
          · cases h
            exact Nat.le_add_right _ _
          · cases h
            exact Nat.le_add_right _ _
        · -- the pseudo-table branch, or no relation at all
          rename_i hswap
          split at h
          · rename_i hcc
            cases h
            have hab : old.key.isPartOf new.key = false := by
              cases hx : old.key.isPartOf new.key with
              | false => rfl
              | true => exact absurd hx hpart
            have hba : new.key.isPartOf old.key = false := by
              cases hx : new.key.isPartOf old.key with
              | false => rfl
              | true => exact absurd hx hswap
            obtain ⟨hlt1, hlt2⟩ := cpc_lt_of_not_isPartOf old.key new.key hab hba
            have hc1 : 1 ≤ old.key.commonPfxCount new.key := hcc
            have houter := keysStr_outer_take old.key
              (old.key.commonPfxCount new.key) hc1
            have hlenA := withoutPfx_len_take old.key
              (old.key.outer (old.key.commonPfxCount new.key))
              (old.key.commonPfxCount new.key) houter hc1 hlt1
            have houter2 : (old.key.outer (old.key.commonPfxCount new.key)).keysStr
                = new.key.keysStr.take (old.key.commonPfxCount new.key) := by
              rw [houter]
              have := cpcGo_agree old.key.keysStr new.key.keysStr
              unfold KeyNode.commonPfxCount
              exact this
            have hlenB := withoutPfx_len_take new.key
              (old.key.outer (old.key.commonPfxCount new.key))
              (old.key.commonPfxCount new.key) houter2 hc1 hlt2
            have hout := outer_len_of old.key (old.key.commonPfxCount new.key)
              hc1 (by omega)
            simp only [sizeE_eq, mkEntry_key, mkEntry_value, sizeV,
              Bool.false_eq_true, if_false]
            rw [sizeEs_cons, sizeEs_cons, hnil, sizeE_withKey, sizeE_withKey,
              hlenA, hlenB, hout]
            omega
          · cases h
            exact Nat.le_add_right _ _
    · intro acc e errs out h
      cases acc with
      | nil =>
        rw [show tryMergeF (f+1) [] e errs = some ([], errs, true) from rfl] at h
        cases h
        exact Nat.le_add_right _ _
      | cons existing rest =>
        simp only [tryMergeF] at h
        split at h
        · cases h
        · rename_i existing2 errors2 heq2
          cases h
          have := ihMe _ _ _ _ heq2
          rw [sizeEs_cons, sizeEs_cons]
          simp only at this ⊢
          omega
        · rename_i existing2 errors2 heq2
          split at h
          · cases h
          · rename_i rest2 errors3 ins heq3
            cases h
            have h1 := mergeEntryF_not_merged f existing e errs _ heq2
              (fun hx => MergeRes.noConfusion hx)
            simp only at h1
            subst h1
            have h2 := ihTry _ _ _ _ heq3
            rw [sizeEs_cons, sizeEs_cons]
            simp only at h2 ⊢
            omega
        · rename_i existing2 errors2 e2 heq2
          cases h
          have h1 := mergeEntryF_not_merged f existing e errs _ heq2
            (fun hx => MergeRes.noConfusion hx)
          simp only at h1
          subst h1
          rw [sizeEs_cons]
          omega
    · intro inp acc errs out h
      cases inp with
      | nil =>
        rw [show mergeF (f+1) [] acc errs = some (acc, errs) from rfl] at h
        cases h
        exact Nat.le_add_left _ _
      | cons entry rest =>
        simp only [mergeF] at h
        split at h
        · cases h
        · rename_i acc2 errors2 shouldInsert heq2
          have hsz2 := ihTry _ _ _ _ heq2
          rw [sizeE_reindex] at hsz2
          simp only at hsz2
          split at h
          · rename_i hins
            have hacc2 : acc2 = acc :=
              tryMergeF_ins_acc f acc _ errs _ heq2 hins
            subst hacc2
            have hres := ihGo _ _ _ _ h
            rw [sizeEs_append, sizeEs_cons, hnil, sizeE_arrayTransform,
              sizeE_reindex] at hres
            rw [sizeEs_cons]
            omega
          · have hres := ihGo _ _ _ _ h
            rw [sizeEs_cons]
            omega

end MergeShapes

section MergeExistence

/-- A well-formed array of tables ends in a plain table. -/
theorem getLast_table_of_itemsAreTables (items : List ValueNode)
    (h : itemsAreTables items = true) :
    ∃ t : TableNode, items.getLast? = some (.table t) ∧ t.array = false := by
  unfold itemsAreTables at h
  rw [Bool.and_eq_true] at h
  have hne : items ≠ [] := by
    intro he
    rw [he] at h
    exact absurd h.1 (by decide)
  have hsome := List.getLast?_isSome.mpr hne
  obtain ⟨x, hx⟩ := Option.isSome_iff_exists.mp hsome
  have hmem := List.mem_of_mem_getLast? hx
  have hpl := List.all_eq_true.mp h.2 x hmem
  cases x
  case table t =>
    refine ⟨t, hx, ?_⟩
    simp only [isPlainTable] at hpl
    cases harr : t.array
    · rfl
    · rw [harr] at hpl
      exact absurd hpl (by decide)
  all_goals simp [isPlainTable] at hpl

/-- Totality of the merge engine on well-formed entries: above some fuel,
each of the three merge functions reaches a fixed successful result.  The
weighted sizes bound the recursion. -/
theorem merge_total : ∀ N : Nat,
    (∀ old new errs, wfE old = true → wfE new = true →
        sizeE old + sizeE new ≤ N →
        ∃ F out, ∀ f, F ≤ f → mergeEntryF f old new errs = some out) ∧
    (∀ acc e errs, wfEs acc = true → wfE e = true →
        sizeEs acc + sizeE e ≤ N →
        ∃ F out, ∀ f, F ≤ f → tryMergeF f acc e errs = some out) ∧
    (∀ inp acc errs, wfEs inp = true → wfEs acc = true →
        sizeEs inp + sizeEs acc ≤ N →
        ∃ F out, ∀ f, F ≤ f → mergeF f inp acc errs = some out) := by
  intro N
  induction N using Nat.strong_induction_on with
  | _ N ih =>
    have hnil : sizeEs ([] : List EntryNode) = 0 := rfl
    have hmeP : ∀ old new errs, wfE old = true → wfE new = true →
        sizeE old + sizeE new ≤ N → old.key.isPartOf new.key = true →
        ∃ F out, ∀ f, F ≤ f → mergeEntryF f old new errs = some out := by
      intro old new errs hwOld hwNew hsz hpart
      obtain ⟨hkOld, hvOld⟩ := (wfE_iff old).mp hwOld
      obtain ⟨hkNew, hvNew⟩ := (wfE_iff new).mp hwNew
      have hko : 1 ≤ old.key.idents.length := List.length_pos.mpr hkOld
      have hszIns : sizeE (new.withKey (new.key.withoutPfx old.key))
          ≤ sizeE new := by
        rw [sizeE_withKey, sizeE_eq new]
        have := withoutPfx_len_le new.key old.key
        omega
      have hwIns : wfE (new.withKey (new.key.withoutPfx old.key)) = true :=
        withKeyStrip_wf new old.key hkNew hvNew
      cases hov : old.value
      case table t =>
        obtain ⟨ts, ta, tp, te⟩ := t
        by_cases hil : (TableNode.mk ts ta tp te).isInline = true
        · refine ⟨1, (old, errs,
            .failed (.inlineTable old.key new.key)), ?_⟩
          intro f hf
          obtain ⟨f', rfl⟩ : ∃ x, f = x + 1 := ⟨f - 1, by omega⟩
          simp only [mergeEntryF, hpart, hov, hil, if_true, if_false, Bool.false_eq_true,
            eq_self_iff_true]
        · have hszo := hsz
          rw [sizeE_eq old, hov] at hszo
          simp only [sizeV] at hszo
          have hwb : 1 ≤ (if ta = true then 2 else 1) := by cases ta <;> simp
          have hEntries : wfEs te = true := by
            rw [hov] at hvOld
            have := wfV_table_entries _ hvOld
            simpa using this
          have hwfInp : wfEs (te ++ [new.withKey (new.key.withoutPfx old.key)])
              = true := by
            rw [wfEs_append, Bool.and_eq_true]
            refine ⟨hEntries, ?_⟩
            rw [wfEs_cons]
            simp [hwIns, wfEs]
          have hMle : sizeEs (te ++ [new.withKey (new.key.withoutPfx old.key)])
              + sizeEs [] ≤ N - 1 := by
            rw [hnil, sizeEs_append, sizeEs_cons, hnil, sizeE_withKey]
            rw [sizeE_withKey, sizeE_eq new] at hszIns
            have hbn := sizeE_eq new
            omega
          obtain ⟨F1, ⟨es, errors2⟩, hF1⟩ := (ih (N-1) (by omega)).2.2
            (te ++ [new.withKey (new.key.withoutPfx old.key)]) [] errs
            hwfInp rfl hMle
          refine ⟨F1 + 1, (old.withValue (.table (.mk ts ta tp es)),
            errors2, .merged), ?_⟩
          intro f hf
          obtain ⟨f', rfl⟩ : ∃ x, f = x + 1 := ⟨f - 1, by omega⟩
          have hm := hF1 f' (by omega)
          simp only [mergeEntryF, hpart, hov, hil, if_true, if_false, Bool.false_eq_true,
            eq_self_iff_true, TableNode.stx, TableNode.array,
            TableNode.pseudo, TableNode.entries, hm]
      case array a =>
        obtain ⟨oaStx, oaTables, oaItems⟩ := a
        cases oaTables with
        | false =>
          refine ⟨1, (old, errs,
            .failed (.expectedTableArray old.key new.key)), ?_⟩
          intro f hf
          obtain ⟨f', rfl⟩ : ∃ x, f = x + 1 := ⟨f - 1, by omega⟩
          simp only [mergeEntryF, hpart, hov, if_true, if_false, Bool.false_eq_true,
            eq_self_iff_true, ArrayNode.tables, Bool.not_false]
        | true =>
          rw [hov] at hvOld
          simp only [wfV, ArrayNode.tables, ArrayNode.items, Bool.not_true,
            Bool.false_or, Bool.and_eq_true] at hvOld
          obtain ⟨arrT, hlast, harrF⟩ :=
            getLast_table_of_itemsAreTables oaItems hvOld.1
          obtain ⟨atStx, atArr, atPseudo, atEs⟩ := arrT
          simp only [TableNode.array] at harrF
          subst harrF
          have hatEs : wfEs atEs = true := by
            have hmem := List.mem_of_mem_getLast? hlast
            have := (wfItems_iff oaItems).mp hvOld.2 _ hmem
            have h2 := wfV_table_entries _ this
            simpa using h2
          have hszo := hsz
          rw [sizeE_eq old, hov] at hszo
          simp only [sizeV] at hszo
          have hsplitLast := sizeVs_getLast oaItems _ hlast
          simp only [sizeV, Bool.false_eq_true, if_false] at hsplitLast
          have hwfInp : wfEs (atEs ++ [new.withKey (new.key.withoutPfx old.key)])
              = true := by
            rw [wfEs_append, Bool.and_eq_true]
            refine ⟨hatEs, ?_⟩
            rw [wfEs_cons]
            simp [hwIns, wfEs]
          have hMle : sizeEs (atEs ++ [new.withKey (new.key.withoutPfx old.key)])
              + sizeEs [] ≤ N - 1 := by
            rw [hnil, sizeEs_append, sizeEs_cons, hnil, sizeE_withKey]
            rw [sizeE_withKey, sizeE_eq new] at hszIns
            have hbn := sizeE_eq new
            omega
          cases hnv : new.value
          case table newT =>
            obtain ⟨ntStx, ntArr, ntPseudo, ntEs⟩ := newT
            by_cases hpush : (old.key.eqKeys new.key && ntArr) = true
            · refine ⟨1, (old.withValue (.array (.mk oaStx true (oaItems
                ++ [.table (.mk ntStx false ntPseudo ntEs)]))), errs,
                .merged), ?_⟩
              intro f hf
              obtain ⟨f', rfl⟩ : ∃ x, f = x + 1 := ⟨f - 1, by omega⟩
              simp only [mergeEntryF, hpart, hov, hnv, hpush, if_true,
                if_false, Bool.false_eq_true, eq_self_iff_true, ArrayNode.stx, ArrayNode.tables,
                ArrayNode.items, TableNode.stx, TableNode.array,
                TableNode.pseudo, TableNode.entries, Bool.not_true]
            · obtain ⟨F1, ⟨es, errors2⟩, hF1⟩ := (ih (N-1) (by omega)).2.2
                (atEs ++ [new.withKey (new.key.withoutPfx old.key)]) [] errs
                hwfInp rfl hMle
              refine ⟨F1 + 1, (old.withValue (.array (.mk oaStx true
                (oaItems.dropLast ++ [.table (.mk atStx false atPseudo es)]))),
                errors2, .merged), ?_⟩
              intro f hf
              obtain ⟨f', rfl⟩ : ∃ x, f = x + 1 := ⟨f - 1, by omega⟩
              have hm := hF1 f' (by omega)
              simp only [mergeEntryF, hpart, hov, hnv, hpush, hlast, hm,
                if_true, if_false, Bool.false_eq_true, eq_self_iff_true, ArrayNode.stx,
                ArrayNode.tables, ArrayNode.items, TableNode.stx,
                TableNode.array, TableNode.pseudo, TableNode.entries,
                Bool.not_true]
          case empty =>
            rw [hnv] at hvNew
            simp [wfV] at hvNew
          all_goals
            obtain ⟨F1, ⟨es, errors2⟩, hF1⟩ := (ih (N-1) (by omega)).2.2
              (atEs ++ [new.withKey (new.key.withoutPfx old.key)]) [] errs
              hwfInp rfl hMle
          all_goals
            refine ⟨F1 + 1, (old.withValue (.array (.mk oaStx true
              (oaItems.dropLast ++ [.table (.mk atStx false atPseudo es)]))),
              errors2, .merged), ?_⟩
          all_goals
            intro f hf
          all_goals
            obtain ⟨f', rfl⟩ : ∃ x, f = x + 1 := ⟨f - 1, by omega⟩
          all_goals
            have hm := hF1 f' (by omega)
          all_goals
            simp only [mergeEntryF, hpart, hov, hnv, hlast, hm, if_true,
              if_false, Bool.false_eq_true, eq_self_iff_true, ArrayNode.stx, ArrayNode.tables,
              ArrayNode.items, TableNode.stx, TableNode.array,
              TableNode.pseudo, TableNode.entries, Bool.not_true]
      case empty =>
        rw [hov] at hvOld
        simp [wfV] at hvOld
      all_goals
        refine ⟨1, (old, errs, .failed (.expectedTable old.key new.key)), ?_⟩
      all_goals
        intro f hf
      all_goals
        obtain ⟨f', rfl⟩ : ∃ x, f = x + 1 := ⟨f - 1, by omega⟩
      all_goals
        simp only [mergeEntryF, hpart, hov, if_true, if_false, Bool.false_eq_true,
          eq_self_iff_true]
    have hme : ∀ old new errs, wfE old = true → wfE new = true →
        sizeE old + sizeE new ≤ N →
        ∃ F out, ∀ f, F ≤ f → mergeEntryF f old new errs = some out := by
      intro old new errs hwOld hwNew hsz
      by_cases hpart : old.key.isPartOf new.key = true
      · exact hmeP old new errs hwOld hwNew hsz hpart
      · by_cases hswap : new.key.isPartOf old.key = true
        · obtain ⟨F1, ⟨newOld, errors2, res⟩, hF1⟩ :=
            hmeP new old errs hwNew hwOld (by omega) hswap
          cases res with
          | merged =>
            refine ⟨F1 + 1, (newOld, errors2, .merged), ?_⟩
            intro f hf
            obtain ⟨f', rfl⟩ : ∃ x, f = x + 1 := ⟨f - 1, by omega⟩
            have hm := hF1 f' (by omega)
            simp only [mergeEntryF, hpart, hswap, hm, if_true, if_false, Bool.false_eq_true,
              eq_self_iff_true]
          | distinct =>
            refine ⟨F1 + 1, (old, errors2, .distinct), ?_⟩
            intro f hf
            obtain ⟨f', rfl⟩ : ∃ x, f = x + 1 := ⟨f - 1, by omega⟩
            have hm := hF1 f' (by omega)
            simp only [mergeEntryF, hpart, hswap, hm, if_true, if_false, Bool.false_eq_true,
              eq_self_iff_true]
          | failed err =>
            refine ⟨F1 + 1, (old, errors2, .failed err), ?_⟩
            intro f hf
            obtain ⟨f', rfl⟩ : ∃ x, f = x + 1 := ⟨f - 1, by omega⟩
            have hm := hF1 f' (by omega)
            simp only [mergeEntryF, hpart, hswap, hm, if_true, if_false, Bool.false_eq_true,
              eq_self_iff_true]
        · by_cases hcc : old.key.commonPfxCount new.key > 0
          · refine ⟨1, (EntryNode.mk old.stx
              (old.key.outer (old.key.commonPfxCount new.key))
              (.table (.mk old.stx false true
                [old.withKey (old.key.withoutPfx
                  (old.key.outer (old.key.commonPfxCount new.key))),
                 new.withKey (new.key.withoutPfx
                  (old.key.outer (old.key.commonPfxCount new.key)))])),
              errs, .merged), ?_⟩
            intro f hf
            obtain ⟨f', rfl⟩ : ∃ x, f = x + 1 := ⟨f - 1, by omega⟩
            simp only [mergeEntryF, hpart, hswap, hcc, if_true, if_false, Bool.false_eq_true,
              eq_self_iff_true]
          · refine ⟨1, (old, errs, .distinct), ?_⟩
            intro f hf
            obtain ⟨f', rfl⟩ : ∃ x, f = x + 1 := ⟨f - 1, by omega⟩
            simp only [mergeEntryF, hpart, hswap, hcc, if_true, if_false, Bool.false_eq_true,
              eq_self_iff_true]
    have htry : ∀ acc, wfEs acc = true → ∀ e errs, wfE e = true →
        sizeEs acc + sizeE e ≤ N →
        ∃ F out, ∀ f, F ≤ f → tryMergeF f acc e errs = some out := by
      intro acc
      induction acc with
      | nil =>
        intro _ e errs _ _
        refine ⟨1, ([], errs, true), ?_⟩
        intro f hf
        obtain ⟨f', rfl⟩ : ∃ x, f = x + 1 := ⟨f - 1, by omega⟩
        rfl
      | cons existing rest ihRest =>
        intro hwAcc e errs hwE hsz
        rw [wfEs_cons, Bool.and_eq_true] at hwAcc
        have hszHead : sizeE existing + sizeE e ≤ N := by
          rw [sizeEs_cons] at hsz
          omega
        obtain ⟨F1, ⟨e2, errs2, res⟩, hF1⟩ :=
          hme existing e errs hwAcc.1 hwE hszHead
        cases res with
        | merged =>
          refine ⟨F1 + 1, (e2 :: rest, errs2, false), ?_⟩
          intro f hf
          obtain ⟨f', rfl⟩ : ∃ x, f = x + 1 := ⟨f - 1, by omega⟩
          have hm := hF1 f' (by omega)
          simp only [tryMergeF, hm]
        | distinct =>
          obtain ⟨F2, ⟨rest2, errs3, ins⟩, hF2⟩ := ihRest hwAcc.2 e errs2 hwE
            (by rw [sizeEs_cons] at hsz; omega)
          refine ⟨max (F1 + 1) (F2 + 1), (e2 :: rest2, errs3, ins), ?_⟩
          intro f hf
          obtain ⟨f', rfl⟩ : ∃ x, f = x + 1 := ⟨f - 1, by
            have := le_max_left (F1+1) (F2+1)
            omega⟩
          have hm := hF1 f' (by
            have := le_max_left (F1+1) (F2+1)
            omega)
          have ht := hF2 f' (by
            have := le_max_right (F1+1) (F2+1)
            omega)
          simp only [tryMergeF, hm, ht]
        | failed err =>
          refine ⟨F1 + 1, (e2 :: rest, errs2 ++ [err], false), ?_⟩
          intro f hf
          obtain ⟨f', rfl⟩ : ∃ x, f = x + 1 := ⟨f - 1, by omega⟩
          have hm := hF1 f' (by omega)
          simp only [tryMergeF, hm]
    have hgo : ∀ inp, wfEs inp = true → ∀ acc errs, wfEs acc = true →
        sizeEs inp + sizeEs acc ≤ N →
        ∃ F out, ∀ f, F ≤ f → mergeF f inp acc errs = some out := by
      intro inp
      induction inp with
      | nil =>
        intro _ acc errs _ _
        refine ⟨1, (acc, errs), ?_⟩
        intro f hf
        obtain ⟨f', rfl⟩ : ∃ x, f = x + 1 := ⟨f - 1, by omega⟩
        rfl
      | cons entry rest ihRest =>
        intro hwInp acc errs hwAcc hsz
        rw [wfEs_cons, Bool.and_eq_true] at hwInp
        have hwE2 : wfE (entry.withKey (entry.key.withIndex 0)) = true := by
          rw [wfE_iff, withKey_key, withKey_value, withIndex_idents]
          exact ⟨((wfE_iff entry).mp hwInp.1).1, ((wfE_iff entry).mp hwInp.1).2⟩
        have hszE2 := sizeE_reindex entry
        have hszTry : sizeEs acc + sizeE (entry.withKey (entry.key.withIndex 0))
            ≤ N := by
          rw [hszE2]
          rw [sizeEs_cons] at hsz
          omega
        obtain ⟨F1, ⟨acc2, errs2, ins⟩, hF1⟩ :=
          htry acc hwAcc _ errs hwE2 hszTry
        have hsz2 : sizeEs acc2 ≤ sizeEs acc + sizeE entry := by
          have h := (merge_size F1).2.1 _ _ _ _ (hF1 F1 (le_refl _))
          simp only at h
          rw [hszE2] at h
          exact h
        have hwAcc2 : wfEs acc2 = true := by
          have h := (merge_wf F1).2.1 _ _ _ _ (hF1 F1 (le_refl _)) hwAcc hwE2
          simpa using h
        cases ins with
        | true =>
          have hacc2 : acc2 = acc := by
            have := tryMergeF_ins_acc F1 acc _ errs _ (hF1 F1 (le_refl _)) rfl
            simpa using this
          have hwAT : wfEs (acc2 ++
              [arrayTransform (entry.withKey (entry.key.withIndex 0))])
              = true := by
            rw [hacc2, wfEs_append, Bool.and_eq_true]
            refine ⟨hwAcc, ?_⟩
            rw [wfEs_cons]
            simp [arrayTransform_wf _ hwE2, wfEs]
          have hszAT : sizeEs rest + sizeEs (acc2 ++
              [arrayTransform (entry.withKey (entry.key.withIndex 0))])
              ≤ N := by
            rw [hacc2, sizeEs_append, sizeEs_cons, hnil, sizeE_arrayTransform,
              hszE2]
            rw [sizeEs_cons] at hsz
            omega
          obtain ⟨F2, out2, hF2⟩ := ihRest hwInp.2
            (acc2 ++ [arrayTransform (entry.withKey (entry.key.withIndex 0))])
            errs2 hwAT hszAT
          refine ⟨max (F1 + 1) (F2 + 1), out2, ?_⟩
          intro f hf
          obtain ⟨f', rfl⟩ : ∃ x, f = x + 1 := ⟨f - 1, by
            have := le_max_left (F1+1) (F2+1)
            omega⟩
          have hm := hF1 f' (by
            have := le_max_left (F1+1) (F2+1)
            omega)
          have hg := hF2 f' (by
            have := le_max_right (F1+1) (F2+1)
            omega)
          simp only [mergeF, hm, hg, if_true, eq_self_iff_true]
        | false =>
          obtain ⟨F2, out2, hF2⟩ := ihRest hwInp.2 acc2 errs2 hwAcc2
            (by rw [sizeEs_cons] at hsz; omega)
          refine ⟨max (F1 + 1) (F2 + 1), out2, ?_⟩
          intro f hf
          obtain ⟨f', rfl⟩ : ∃ x, f = x + 1 := ⟨f - 1, by
            have := le_max_left (F1+1) (F2+1)
            omega⟩
          have hm := hF1 f' (by
            have := le_max_left (F1+1) (F2+1)
            omega)
          have hg := hF2 f' (by
            have := le_max_right (F1+1) (F2+1)
            omega)
          simp only [mergeF, hm, hg, if_false, Bool.false_eq_true, eq_self_iff_true]
    exact ⟨hme,
      fun acc e errs h1 h2 h3 => htry acc h1 e errs h2 h3,
      fun inp acc errs h1 h2 h3 => hgo inp h1 acc errs h2 h3⟩

end MergeExistence

section CastTotal

/-- Above the walk bound and the merge bound, RootNode::cast of a ROOT node
reaches a fixed successful result. -/
theorem castRootF_total (s : Syn) (hk : s.kind = SynKind.ROOT)
    (hn : s.isNode = true) :
    ∃ F r, ∀ f, F ≤ f → castRootF f s = some r := by
  by_cases he : (walkRoot (4 * synSize s + 2) s).errors.isEmpty = true
  · have hwfIn : wfEs (entriesFromMap (walkRoot (4 * synSize s + 2) s).entries)
        = true :=
      entriesFromMap_wf _ (walkRoot_wf (4 * synSize s + 2) s)
    obtain ⟨F0, ⟨merged, errors⟩, hF0⟩ :=
      (merge_total (sizeEs (entriesFromMap
          (walkRoot (4 * synSize s + 2) s).entries) + sizeEs [])).2.2
        (entriesFromMap (walkRoot (4 * synSize s + 2) s).entries) []
        (walkRoot (4 * synSize s + 2) s).errors hwfIn rfl (le_refl _)
    refine ⟨max (4 * synSize s + 2) F0,
      ⟨s, errors, normalizeEntries merged⟩, ?_⟩
    intro f hf
    have hB := le_max_left (4 * synSize s + 2) F0
    have hw := walkRoot_stable f (4 * synSize s + 2) s (by omega) (le_refl _)
    have hm := hF0 f (le_trans (le_max_right _ _) hf)
    simp only [castRootF, hk, ne_eq, not_true, hw, hn, Bool.not_true, he, hm,
      if_true, if_false, Bool.false_eq_true, eq_self_iff_true,
      not_true_eq_false]
  · refine ⟨4 * synSize s + 2,
      ⟨s, (walkRoot (4 * synSize s + 2) s).errors,
        entriesFromMap (walkRoot (4 * synSize s + 2) s).entries⟩, ?_⟩
    intro f hf
    have hw := walkRoot_stable f (4 * synSize s + 2) s (by omega) (le_refl _)
    simp only [castRootF, hk, ne_eq, not_true, hw, hn, Bool.not_true, he,
      if_true, if_false, Bool.false_eq_true, eq_self_iff_true,
      not_true_eq_false]

end CastTotal

section C10Claim

/-- C10 counterexample: the claim quantifies over every syntax element of
kind ROOT, but a ROOT-kinded token makes the source panic on
into_node().unwrap(), modelled as none at every fuel, so only ROOT nodes
are total.  (No parse tree contains such a token, but the claim as stated
ranges over all syntax elements.) -/
theorem c10_counterexample :
    castRootF 1000 (Syn.tok SynKind.ROOT []) = none ∧
    (Syn.tok SynKind.ROOT []).kind = SynKind.ROOT :=
  ⟨rfl, rfl⟩

/-- C10 (amended): RootNode::cast returns None for every element whose kind
is not ROOT and for every token (for a ROOT token the source panics on
into_node().unwrap() at dom.rs:152, modelled as none); and for every
kind-consistent ROOT node it returns Some root: at every sufficiently large
fuel the result is a fixed successful root, however many errors were
accumulated during construction.  The kind-consistency hypothesis restricts
the last part to the trees the parser can produce: on a kind-inconsistent
tree the source can panic inside a child cast (dom.rs:423, 777, 855, 1242,
1300), an abort below the root that the fuel model does not track — it
skips such a child like an ordinary failed cast — so nothing is claimed
there. -/
theorem c10_cast_total_on_root_nodes :
    (∀ (f : Nat) (s : Syn), s.kind ≠ SynKind.ROOT → castRootF f s = none) ∧
    (∀ (f : Nat) (s : Syn), s.isNode = false → castRootF f s = none) ∧
    (∀ s : Syn, s.kind = SynKind.ROOT → s.isNode = true →
      kindConsistent s = true →
      ∃ F r, ∀ f, F ≤ f → castRootF f s = some r) := by
  refine ⟨?_, ?_, ?_⟩
  · intro f s h
    unfold castRootF
    rw [if_pos h]
  · intro f s h
    unfold castRootF
    split
    · rfl
    · rw [if_pos (by rw [h]; rfl)]
  · intro s hk hn hkc
    exact castRootF_total s hk hn

/-- Witness for C10: a non-ROOT token and a ROOT token cast to none, and
the dotted-key document's kind-consistent ROOT node casts to a fixed root
at every large fuel. -/
theorem c10_cast_total_witness :
    castRootF 0 (Syn.tok SynKind.OTHER []) = none ∧
    castRootF 0 (Syn.tok SynKind.ROOT []) = none ∧
    ∃ F r, ∀ f, F ≤ f → castRootF f c1Input = some r :=
  ⟨c10_cast_total_on_root_nodes.1 0 (Syn.tok SynKind.OTHER []) (by decide),
   c10_cast_total_on_root_nodes.2.1 0 (Syn.tok SynKind.ROOT []) (by decide),
   c10_cast_total_on_root_nodes.2.2 c1Input (by decide) (by decide) (by decide)⟩

end C10Claim

end Taplo
